import Mathlib

/-!
# Verification of the Moltbook markdown renderer

A shallow embedding of `parseMarkdown` and `highlightCode` from
`src/components/common/markdown.tsx`.  Each JavaScript
`String.prototype.replace(regex, ...)` pass is modelled by a left-to-right
scanner (`scanWith`) driven by a matcher that reproduces the exact
backtracking behaviour of the corresponding regular expression; the passes
are chained in source order in `mdStages` / `highlightCode`.
-/

namespace Moltbook


/-! ### Character classes (JavaScript regex semantics) -/

/-- JavaScript whitespace (`\s`, also `String.prototype.trim`). -/
def isJsWs (c : Char) : Bool :=
  c.toNat = 32 || c.toNat = 9 || c.toNat = 10 || c.toNat = 13 || c.toNat = 11 ||
  c.toNat = 12 || c.toNat = 160 || c.toNat = 0xFEFF || c.toNat = 0x1680 ||
  (0x2000 ≤ c.toNat && c.toNat ≤ 0x200A) || c.toNat = 0x2028 || c.toNat = 0x2029 ||
  c.toNat = 0x202F || c.toNat = 0x205F || c.toNat = 0x3000

/-- JavaScript line terminators (the characters `.` does not match; the
positions `^` and `$` anchor to in multiline mode). -/
def isLineTerm (c : Char) : Bool :=
  c.toNat = 10 || c.toNat = 13 || c.toNat = 0x2028 || c.toNat = 0x2029

/-- ASCII digit (JavaScript `\d`). -/
def isDigitC (c : Char) : Bool := 48 ≤ c.toNat && c.toNat ≤ 57

/-- JavaScript `\w`. -/
def isWordChar (c : Char) : Bool :=
  (65 ≤ c.toNat && c.toNat ≤ 90) || (97 ≤ c.toNat && c.toNat ≤ 122) ||
  isDigitC c || c.toNat = 95

/-- ASCII lower-casing (what the non-unicode `/i` flag and the table lookup need). -/
def lowerC (c : Char) : Char :=
  if 65 ≤ c.toNat && c.toNat ≤ 90 then Char.ofNat (c.toNat + 32) else c

def btick : Char := Char.ofNat 96

/-! ### Generic left-to-right global replacement -/

/-- A matcher: given the character just before the current position (`none` at
the very start) and the rest of the input, return the replacement text and the
number of characters the match consumes. -/
def Matcher := Option Char → List Char → Option (List Char × Nat)

def lastOr (l : List Char) (dflt : Option Char) : Option Char :=
  match l.getLast? with
  | some c => some c
  | none => dflt

/-- `String.prototype.replace` with the `g` flag: scan left to right, on a
match emit the replacement and continue after the consumed characters.
`fuel` is always at least the length of the input. -/
def scanWith (m : Matcher) : Nat → Option Char → List Char → List Char
  | 0, _, l => l
  | _ + 1, _, [] => []
  | fuel + 1, prev, c :: rest =>
    match m prev (c :: rest) with
    | some (repl, k) =>
      if k = 0 then c :: scanWith m fuel (some c) rest
      else repl ++ scanWith m fuel (lastOr (List.take k (c :: rest)) prev) (List.drop k (c :: rest))
    | none => c :: scanWith m fuel (some c) rest

def runScan (m : Matcher) (l : List Char) : List Char := scanWith m l.length none l

/-- Literal global replacement. -/
def litM (pat repl : List Char) : Matcher := fun _ l =>
  if pat.isPrefixOf l then some (repl, pat.length) else none

def atBOL (prev : Option Char) : Bool :=
  match prev with
  | none => true
  | some c => isLineTerm c

/-- Index of the first occurrence of `pat`. -/
def findSub (pat : List Char) : List Char → Option Nat
  | [] => if pat.isEmpty then some 0 else none
  | c :: rest => if pat.isPrefixOf (c :: rest) then some 0 else (findSub pat rest).map (· + 1)

/-- Largest index `i ≥ minIdx` at which `pat` occurs in `l`. -/
def lastSub (pat : List Char) (minIdx : Nat) (l : List Char) : Option Nat :=
  ((List.range (l.length + 1)).filter
    (fun i => decide (minIdx ≤ i) && pat.isPrefixOf (l.drop i))).getLast?

def containsSub (pat : List Char) : List Char → Bool
  | [] => pat.isEmpty
  | c :: rest => pat.isPrefixOf (c :: rest) || containsSub pat rest

/-- `String.prototype.trim`. -/
def trimJs (l : List Char) : List Char :=
  ((l.dropWhile isJsWs).reverse.dropWhile isJsWs).reverse

/-! ### The markdown matchers (one per regex of `parseMarkdown`) -/

/-- `\s+(.+)$` in multiline mode: greedy whitespace, a nonempty run of
non-line-terminator characters, end of line; returns capture and consumed
length (with the `\s+` backtracking JavaScript performs when the rest of the
string is all whitespace). -/
def matchWsContent (t : List Char) : Option (List Char × Nat) :=
  let w := t.takeWhile isJsWs
  if w.length = 0 then none
  else
    match t.drop w.length with
    | _ :: _ =>
      let cap := (t.drop w.length).takeWhile (fun c => !isLineTerm c)
      some (cap, w.length + cap.length)
    | [] =>
      match ((List.range w.length).filter
          (fun i => decide (1 ≤ i) && !isLineTerm (w.getD i ' '))).getLast? with
      | some i =>
        let cap := (w.drop i).takeWhile (fun c => !isLineTerm c)
        some (cap, i + cap.length)
      | none => none

/-- ``` ```lang\nbody``` ``` with a function replacer trimming the body. -/
def codeBlockM : Matcher := fun _ l =>
  if ([btick, btick, btick]).isPrefixOf l then
    let rest := l.drop 3
    let lang := rest.takeWhile isWordChar
    match rest.drop lang.length with
    | '\n' :: afterNl =>
      match findSub [btick, btick, btick] afterNl with
      | some i =>
        some ("<pre class=\"code-block\" data-lang=\"".data ++ lang ++ "\"><code>".data
              ++ trimJs (afterNl.take i) ++ "</code></pre>".data,
              3 + lang.length + 1 + i + 3)
      | none => none
    | _ => none
  else none

/-- `d([^d]+)d` (inline code, italic). -/
def delim1M (d : Char) (tagO tagC : List Char) : Matcher := fun _ l =>
  match l with
  | c :: rest =>
    if c = d then
      let run := rest.takeWhile (fun e => e ≠ d)
      if run.length = 0 then none
      else
        match rest.drop run.length with
        | e :: _ => if e = d then some (tagO ++ run ++ tagC, run.length + 2) else none
        | [] => none
    else none
  | [] => none

/-- `dd([^d]+)dd` (bold, strikethrough). -/
def delim2M (d : Char) (tagO tagC : List Char) : Matcher := fun _ l =>
  if ([d, d]).isPrefixOf l then
    let rest := l.drop 2
    let run := rest.takeWhile (fun e => e ≠ d)
    if run.length = 0 then none
    else if ([d, d]).isPrefixOf (rest.drop run.length) then
      some (tagO ++ run ++ tagC, run.length + 4)
    else none
  else none

/-- `^#...#\s+(.+)$` in multiline mode. -/
def headerM (n : Nat) (tagO tagC : List Char) : Matcher := fun prev l =>
  if atBOL prev && (List.replicate n '#').isPrefixOf l then
    match matchWsContent (l.drop n) with
    | some (cap, k) => some (tagO ++ cap ++ tagC, n + k)
    | none => none
  else none

/-- `[text](url)`. -/
def linkM : Matcher := fun _ l =>
  match l with
  | '[' :: rest =>
    let txt := rest.takeWhile (fun c => c ≠ ']')
    if txt.length = 0 then none
    else
      match rest.drop txt.length with
      | ']' :: '(' :: rest2 =>
        let url := rest2.takeWhile (fun c => c ≠ ')')
        if url.length = 0 then none
        else
          match rest2.drop url.length with
          | ')' :: _ =>
            some ("<a href=\"".data ++ url ++
                  "\" target=\"_blank\" rel=\"noopener noreferrer\">".data ++ txt ++
                  "</a>".data, txt.length + url.length + 4)
          | _ => none
      | _ => none
  | _ => none

/-- `![alt](url)` (alt may be empty). -/
def imageM : Matcher := fun _ l =>
  match l with
  | '!' :: '[' :: rest =>
    let alt := rest.takeWhile (fun c => c ≠ ']')
    match rest.drop alt.length with
    | ']' :: '(' :: rest2 =>
      let url := rest2.takeWhile (fun c => c ≠ ')')
      if url.length = 0 then none
      else
        match rest2.drop url.length with
        | ')' :: _ =>
          some ("<img src=\"".data ++ url ++ "\" alt=\"".data ++ alt ++
                "\" class=\"markdown-image\" />".data, alt.length + url.length + 5)
        | _ => none
    | _ => none
  | _ => none

/-- `^>\s+(.+)$` in multiline mode. -/
def blockquoteM : Matcher := fun prev l =>
  match l with
  | '>' :: rest =>
    if atBOL prev then
      match matchWsContent rest with
      | some (cap, k) => some ("<blockquote>".data ++ cap ++ "</blockquote>".data, 1 + k)
      | none => none
    else none
  | _ => none

def isHrChar (c : Char) : Bool := c = '-' || c = '*' || c = '_'

/-- `^[-*_]{3,}$` in multiline mode. -/
def hrM : Matcher := fun prev l =>
  if atBOL prev then
    let run := l.takeWhile isHrChar
    if 3 ≤ run.length then
      match l.drop run.length with
      | [] => some ("<hr />".data, run.length)
      | c :: _ => if isLineTerm c then some ("<hr />".data, run.length) else none
    else none
  else none

/-- `^[-*]\s+(.+)$` in multiline mode. -/
def ulItemM : Matcher := fun prev l =>
  match l with
  | c :: rest =>
    if atBOL prev && (c = '-' || c = '*') then
      match matchWsContent rest with
      | some (cap, k) => some ("<li>".data ++ cap ++ "</li>".data, 1 + k)
      | none => none
    else none
  | [] => none

/-- `^\d+\.\s+(.+)$` in multiline mode. -/
def olItemM : Matcher := fun prev l =>
  if atBOL prev then
    let ds := l.takeWhile isDigitC
    if ds.length = 0 then none
    else
      match l.drop ds.length with
      | '.' :: rest =>
        match matchWsContent rest with
        | some (cap, k) => some ("<li>".data ++ cap ++ "</li>".data, ds.length + 1 + k)
        | none => none
      | _ => none
  else none

/-- One iteration of the group `<li>.*<\/li>\n?` (greedy `.*`, so the
rightmost `</li>` on the line). -/
def ulGroupLen (l : List Char) : Option Nat :=
  if ("<li>".data).isPrefixOf l then
    let line := l.takeWhile (fun c => !isLineTerm c)
    match lastSub "</li>".data 4 line with
    | some q =>
      match l.drop (q + 5) with
      | '\n' :: _ => some (q + 6)
      | _ => some (q + 5)
    | none => none
  else none

def ulGroupsLen : Nat → List Char → Nat
  | 0, _ => 0
  | fuel + 1, l =>
    match ulGroupLen l with
    | some g => g + ulGroupsLen fuel (l.drop g)
    | none => 0

/-- `(<li>.*<\/li>\n?)+` replaced by `<ul>$&</ul>`. -/
def ulWrapM : Matcher := fun _ l =>
  let total := ulGroupsLen l.length l
  if total = 0 then none
  else some ("<ul>".data ++ l.take total ++ "</ul>".data, total)

/-- Backtracking search for `\s+(.+)<\/li>` (case sensitivity configurable):
`m` whitespace characters from `mFuel` down to 1, then the rightmost
case-matching `</li>` on the line with a nonempty capture before it. -/
def taskTail (ci : Bool) (T : List Char) : Nat → Option (List Char × Nat)
  | 0 => none
  | m + 1 =>
    let lineM := (T.drop (m + 1)).takeWhile (fun c => !isLineTerm c)
    let pat := "</li>".data
    match (((List.range (lineM.length + 1)).filter
        (fun i => decide (1 ≤ i) &&
          (if ci then (pat.zip (lineM.drop i)).all (fun p => lowerC p.1 = lowerC p.2) &&
                      decide (i + 5 ≤ lineM.length)
           else pat.isPrefixOf (lineM.drop i))))).getLast? with
    | some q => some (lineM.take q, (m + 1) + q + 5)
    | none => taskTail ci T m

/-- `<li>\[\s\]\s+(.+)<\/li>` → unchecked task item. -/
def taskUncheckedM : Matcher := fun _ l =>
  if ("<li>[".data).isPrefixOf l then
    match l.drop 5 with
    | c :: ']' :: T =>
      if isJsWs c then
        match taskTail false T (T.takeWhile isJsWs).length with
        | some (cap, k) =>
          some ("<li class=\"task-item\"><input type=\"checkbox\" disabled /> ".data ++ cap ++
                "</li>".data, 7 + k)
        | none => none
      else none
    | _ => none
  else none

def ciStarts (pat l : List Char) : Bool :=
  (pat.zip l).all (fun p => lowerC p.1 = lowerC p.2) && decide (pat.length ≤ l.length)

/-- `<li>\[x\]\s+(.+)<\/li>` with the `i` flag → checked task item. -/
def taskCheckedM : Matcher := fun _ l =>
  if ciStarts "<li>[".data l then
    match l.drop 5 with
    | x :: b :: T =>
      if lowerC x = 'x' && b = ']' then
        match taskTail true T (T.takeWhile isJsWs).length with
        | some (cap, k) =>
          some ("<li class=\"task-item\"><input type=\"checkbox\" checked disabled /> ".data ++
                cap ++ "</li>".data, 7 + k)
        | none => none
      else none
    | _ => none
  else none

def isH16 (c : Char) : Bool := 49 ≤ c.toNat && c.toNat ≤ 54

/-- `<p>(<h[1-6]>)` → `$1`. -/
def pOpenHM : Matcher := fun _ l =>
  match l with
  | '<' :: 'p' :: '>' :: '<' :: 'h' :: d :: '>' :: _ =>
    if isH16 d then some (['<', 'h', d, '>'], 7) else none
  | _ => none

/-- `(<\/h[1-6]>)<\/p>` → `$1`. -/
def hClosePM : Matcher := fun _ l =>
  match l with
  | '<' :: '/' :: 'h' :: d :: '>' :: '<' :: '/' :: 'p' :: '>' :: _ =>
    if isH16 d then some (['<', '/', 'h', d, '>'], 9) else none
  | _ => none

/-- Wrap in a paragraph unless the string already starts with a tag. -/
def wrapP (l : List Char) : List Char :=
  match l with
  | '<' :: _ => l
  | _ => "<p>".data ++ l ++ "</p>".data

/-! ### The pipeline -/

def escapeHtml (l : List Char) : List Char :=
  runScan (litM ['>'] "&gt;".data)
    (runScan (litM ['<'] "&lt;".data)
      (runScan (litM ['&'] "&amp;".data) l))

def mdStages (l : List Char) : List Char :=
  let s := runScan codeBlockM l
  let s := runScan (delim1M btick "<code class=\"inline-code\">".data "</code>".data) s
  let s := runScan (headerM 6 "<h6>".data "</h6>".data) s
  let s := runScan (headerM 5 "<h5>".data "</h5>".data) s
  let s := runScan (headerM 4 "<h4>".data "</h4>".data) s
  let s := runScan (headerM 3 "<h3>".data "</h3>".data) s
  let s := runScan (headerM 2 "<h2>".data "</h2>".data) s
  let s := runScan (headerM 1 "<h1>".data "</h1>".data) s
  let s := runScan (delim2M '*' "<strong>".data "</strong>".data) s
  let s := runScan (delim2M '_' "<strong>".data "</strong>".data) s
  let s := runScan (delim1M '*' "<em>".data "</em>".data) s
  let s := runScan (delim1M '_' "<em>".data "</em>".data) s
  let s := runScan (delim2M '~' "<del>".data "</del>".data) s
  let s := runScan linkM s
  let s := runScan imageM s
  let s := runScan blockquoteM s
  let s := runScan hrM s
  let s := runScan ulItemM s
  let s := runScan ulWrapM s
  let s := runScan olItemM s
  let s := runScan taskUncheckedM s
  let s := runScan taskCheckedM s
  let s := runScan (litM "\n\n".data "</p><p>".data) s
  let s := runScan (litM "\n".data "<br />".data) s
  let s := wrapP s
  let s := runScan (litM "<p></p>".data []) s
  let s := runScan pOpenHM s
  let s := runScan hClosePM s
  let s := runScan (litM "<p><ul>".data "<ul>".data) s
  let s := runScan (litM "</ul></p>".data "</ul>".data) s
  let s := runScan (litM "<p><blockquote>".data "<blockquote>".data) s
  let s := runScan (litM "</blockquote></p>".data "</blockquote>".data) s
  let s := runScan (litM "<p><pre".data "<pre".data) s
  let s := runScan (litM "</pre></p>".data "</pre>".data) s
  runScan (litM "<p><hr />".data "<hr />".data) s

/-- Shallow embedding of `parseMarkdown` from `src/components/common/markdown.tsx`. -/
def parseMarkdown (text : String) (allowHtml : Bool := false) : String :=
  String.mk (mdStages (if allowHtml then text.data else escapeHtml text.data))

/-! ### highlightCode -/

def isQuoteC (c : Char) : Bool := c = '"' || c = '\'' || c = btick

/-- Body of `(["'`])(?:(?!\1)[^\\]|\\.)*\1` after the opening quote; returns
the number of characters up to and including the closing quote. -/
def strBody (q : Char) : Nat → List Char → Option Nat
  | 0, _ => none
  | _ + 1, [] => none
  | fuel + 1, c :: rest =>
    if c = q then some 1
    else if c = '\\' then
      match rest with
      | [] => none
      | d :: rest2 =>
        if isLineTerm d then none
        else
          match strBody q fuel rest2 with
          | some n => some (n + 2)
          | none => none
    else
      match strBody q fuel rest with
      | some n => some (n + 1)
      | none => none

def stringLitM : Matcher := fun _ l =>
  match l with
  | c :: rest =>
    if isQuoteC c then
      match strBody c rest.length rest with
      | some n => some ("<span class=\"string\">".data ++ l.take (n + 1) ++ "</span>".data, n + 1)
      | none => none
    else none
  | [] => none

/-- `(\/\/.*$|#.*$)` in multiline mode. -/
def lineCommentM : Matcher := fun _ l =>
  if ('/' :: '/' :: []).isPrefixOf l then
    let run := (l.drop 2).takeWhile (fun c => !isLineTerm c)
    some ("<span class=\"comment\">".data ++ l.take (2 + run.length) ++ "</span>".data,
          2 + run.length)
  else if (['#']).isPrefixOf l then
    let run := (l.drop 1).takeWhile (fun c => !isLineTerm c)
    some ("<span class=\"comment\">".data ++ l.take (1 + run.length) ++ "</span>".data,
          1 + run.length)
  else none

/-- `(\/\*[\s\S]*?\*\/)`. -/
def blockCommentM : Matcher := fun _ l =>
  if ('/' :: '*' :: []).isPrefixOf l then
    match findSub ('*' :: '/' :: []) (l.drop 2) with
    | some i =>
      some ("<span class=\"comment\">".data ++ l.take (i + 4) ++ "</span>".data, i + 4)
    | none => none
  else none

def wordNext (next : Option Char) : Bool :=
  match next with
  | some c => isWordChar c
  | none => false

/-- The character before the match is absent or not a word character. -/
def prevNonWord (prev : Option Char) : Bool :=
  match prev with
  | some c => !isWordChar c
  | none => true

/-- `\b(keyword)\b`. -/
def kwM (kw : List Char) : Matcher := fun prev l =>
  if kw.isPrefixOf l && prevNonWord prev then
    if wordNext ((l.drop kw.length).head?) then none
    else some ("<span class=\"keyword\">".data ++ kw ++ "</span>".data, kw.length)
  else none

/-- Backtracking over `\d*` in `\b(\d+\.?\d*)\b`: `b` digits after the dot,
largest acceptable `b` first; `b = 0` leaves the dot as the last character. -/
def numB (dotRest : List Char) : Nat → Option Nat
  | 0 => if wordNext dotRest.head? then some 0 else none
  | b + 1 =>
    if !wordNext ((dotRest.drop (b + 1)).head?) then some (b + 1) else numB dotRest b

/-- `\b(\d+\.?\d*)\b`. -/
def numberM : Matcher := fun prev l =>
  match l with
  | c :: _ =>
    if isDigitC c && prevNonWord prev then
      let d1 := l.takeWhile isDigitC
      match l.drop d1.length with
      | '.' :: dotRest =>
        match numB dotRest (dotRest.takeWhile isDigitC).length with
        | some b =>
          some ("<span class=\"number\">".data ++ d1 ++ '.' :: dotRest.take b ++
                "</span>".data, d1.length + 1 + b)
        | none =>
          some ("<span class=\"number\">".data ++ d1 ++ "</span>".data, d1.length)
      | next =>
        if !wordNext next.head? then
          some ("<span class=\"number\">".data ++ d1 ++ "</span>".data, d1.length)
        else none
    else none
  | [] => none

def jsKws : List (List Char) :=
  ["const".data, "let".data, "var".data, "function".data, "return".data, "if".data,
   "else".data, "for".data, "while".data, "class".data, "import".data, "export".data,
   "from".data, "async".data, "await".data, "try".data, "catch".data, "throw".data,
   "new".data, "this".data]

def tsKws : List (List Char) :=
  jsKws ++ ["interface".data, "type".data, "enum".data, "implements".data, "extends".data]

def pyKws : List (List Char) :=
  ["def".data, "class".data, "return".data, "if".data, "elif".data, "else".data,
   "for".data, "while".data, "import".data, "from".data, "try".data, "except".data,
   "raise".data, "with".data, "as".data, "lambda".data, "yield".data, "async".data,
   "await".data]

def kwList (language : String) : List (List Char) :=
  let lower := String.mk (language.data.map lowerC)
  if lower = "javascript" then jsKws
  else if lower = "typescript" then tsKws
  else if lower = "python" then pyKws
  else []

/-- Shallow embedding of `highlightCode` from `src/components/common/markdown.tsx`:
strings, then line comments, then block comments, then each keyword of the
language's table in order, then numbers. -/
def highlightCode (code : String) (language : String) : String :=
  String.mk (runScan numberM
    ((kwList language).foldl (fun acc kw => runScan (kwM kw) acc)
      (runScan blockCommentM (runScan lineCommentM (runScan stringLitM code.data)))))


/-! ### Helpers for the statements -/

/-- `pat` occurs as a substring of `s`. -/
def subStr (pat s : String) : Bool := containsSub pat.data s.data

/-- The firing condition of `kwM`: a whole-word occurrence of `kw` starts here. -/
def kwHereB (kw : List Char) (prev : Option Char) (l : List Char) : Bool :=
  (kw.isPrefixOf l && prevNonWord prev) && !wordNext ((l.drop kw.length).head?)

/-- Some whole-word occurrence of `kw` appears in `l` (scanning with the
preceding character `prev`). -/
def hasWholeWord (kw : List Char) : Option Char → List Char → Bool
  | _, [] => false
  | prev, c :: rest => kwHereB kw prev (c :: rest) || hasWholeWord kw (some c) rest


/-! ### The tag-shape invariant used for the paragraph-cleanup claims

With `allowHtml = false` every `<` in the working string is inserted by a
replacement template, so each `<` is followed by a template-determined
continuation.  `good` records exactly the continuations the pre-folding
templates produce: after `<` a tag letter or `/`; after `<p` always `r`
(from `<pre`); after `</` a tag letter; after `</p` always `r` (from
`</pre>`).  In particular a `good` string contains no `<p>`, no `</p>`,
no `<<` and no `<o`. -/

/-- Letters that pre-folding templates put right after `<`. -/
def isLS1 (c : Char) : Bool :=
  c = 'c' || c = 'h' || c = 's' || c = 'e' || c = 'd' || c = 'a' || c = 'i' ||
  c = 'b' || c = 'l' || c = 'u'

/-- Letters that pre-folding templates put right after `</`. -/
def isLS2 (c : Char) : Bool :=
  c = 'c' || c = 'h' || c = 's' || c = 'e' || c = 'd' || c = 'a' || c = 'b' ||
  c = 'l' || c = 'u'

/-- ASCII letter or `/`: the characters at which no markdown matcher can
fire (they are never pattern-initial). -/
def keepChar (c : Char) : Bool :=
  (65 ≤ c.toNat && c.toNat ≤ 90) || (97 ≤ c.toNat && c.toNat ≤ 122) || c.toNat = 47

/-- The window check at one position: a `<` must be followed by an allowed
continuation (which only inspects the next three characters). -/
def localOk (l : List Char) : Bool :=
  match l with
  | c :: rest =>
    if c = '<' then
      match rest with
      | [] => false
      | d :: rest2 =>
        if d = 'p' then rest2.head? == some 'r'
        else if d = '/' then
          match rest2 with
          | [] => false
          | e :: rest3 =>
            if e = 'p' then rest3.head? == some 'r'
            else isLS2 e
        else isLS1 d
    else true
  | [] => true

/-- Every position of the string passes the window check. -/
def good : List Char → Bool
  | [] => true
  | c :: rest => localOk (c :: rest) && good rest

/-- `</p>` as a list. -/
def pTagC : List Char := '<' :: '/' :: 'p' :: '>' :: []

/-- `<p>` as a list. -/
def pTagO : List Char := '<' :: 'p' :: '>' :: []

/-- `</p><p>`, the paragraph separator inserted for every blank line. -/
def sepT : List Char := pTagC ++ pTagO

/-- `<p></p>`, the empty paragraph pattern removed by the cleanup. -/
def pat7 : List Char := pTagO ++ pTagC

/-- The decomposition of a string at every `\n\n` (what the scanner that
replaces `\n\n` by `</p><p>` computes between replacements). -/
def consHead (c : Char) : List (List Char) → List (List Char)
  | p :: ps => (c :: p) :: ps
  | [] => [[c]]

def fold1Parts : Nat → List Char → List (List Char)
  | 0, l => [l]
  | _ + 1, [] => [[]]
  | fuel + 1, c :: rest =>
    if ('\n' :: '\n' :: []).isPrefixOf (c :: rest) then
      [] :: fold1Parts fuel (rest.drop 1)
    else consHead c (fold1Parts fuel rest)

/-- Decidable check that replacing by `r` can neither contain nor straddle
an occurrence of `q`: no nonempty suffix of `q` is prefix-compatible with
`r`, and no nonempty proper suffix of `r` is prefix-compatible with `q`. -/
def noqOk (q r : List Char) : Bool :=
  ((List.range q.length).all (fun i =>
    !(q.drop i).isPrefixOf r && !r.isPrefixOf (q.drop i))) &&
  ((List.range r.length).all (fun jj =>
    decide (jj = 0) || (!(r.drop jj).isPrefixOf q && !q.isPrefixOf (r.drop jj))))

/-- Parts joined by the paragraph separator `</p><p>` (the shape of the
string after the blank-line folding pass). -/
def joinSep : List (List Char) → List Char
  | [] => []
  | [p] => p
  | p :: ps => p ++ sepT ++ joinSep ps

/-- A paragraph block `<p>part</p>`. -/
def pWrap (q : List Char) : List Char := pTagO ++ q ++ pTagC

/-- A sequence of paragraph blocks. -/
def pBlocks : List (List Char) → List Char
  | [] => []
  | q :: qs => pWrap q ++ pBlocks qs

/-- The stages of `mdStages` before the line-break folding (code blocks
through task lists), as one composite. -/
def preFold (l : List Char) : List Char :=
  runScan taskCheckedM (runScan taskUncheckedM (runScan olItemM (runScan ulWrapM
    (runScan ulItemM (runScan hrM (runScan blockquoteM (runScan imageM (runScan linkM
    (runScan (delim2M '~' "<del>".data "</del>".data)
    (runScan (delim1M '_' "<em>".data "</em>".data)
    (runScan (delim1M '*' "<em>".data "</em>".data)
    (runScan (delim2M '_' "<strong>".data "</strong>".data)
    (runScan (delim2M '*' "<strong>".data "</strong>".data)
    (runScan (headerM 1 "<h1>".data "</h1>".data)
    (runScan (headerM 2 "<h2>".data "</h2>".data)
    (runScan (headerM 3 "<h3>".data "</h3>".data)
    (runScan (headerM 4 "<h4>".data "</h4>".data)
    (runScan (headerM 5 "<h5>".data "</h5>".data)
    (runScan (headerM 6 "<h6>".data "</h6>".data)
    (runScan (delim1M btick "<code class=\"inline-code\">".data "</code>".data)
    (runScan codeBlockM l)))))))))))))))))))))

/-- The two line-break folding stages (`\n\n` then `\n`). -/
def foldP (l : List Char) : List Char :=
  runScan (litM "\n".data "<br />".data) (runScan (litM "\n\n".data "</p><p>".data) l)

/-- The cleanup stages after the paragraph wrap. -/
def cleanupP (l : List Char) : List Char :=
  runScan (litM "<p><hr />".data "<hr />".data)
  (runScan (litM "</pre></p>".data "</pre>".data)
  (runScan (litM "<p><pre".data "<pre".data)
  (runScan (litM "</blockquote></p>".data "</blockquote>".data)
  (runScan (litM "<p><blockquote>".data "<blockquote>".data)
  (runScan (litM "</ul></p>".data "</ul>".data)
  (runScan (litM "<p><ul>".data "<ul>".data)
  (runScan hClosePM
  (runScan pOpenHM
  (runScan (litM "<p></p>".data []) l)))))))))

/-! ### Claim theorems -/

/-- **C1, counterexample.**  The claim says rendering a fenced block whose body
contains `**not bold**` (with `allowHtml = false`) leaves the text
`**not bold**` literally inside the code block.  It does not: the bold rule
rewrites the body, so the literal text is gone from the output. -/
theorem c1_fence_body_cex :
    subStr "**not bold**" (parseMarkdown "```\n**not bold**\n```" false) = false := by decide

/-- **C1, amended.**  The body of a fenced code block is substituted inline
into the working string, not protected from later rules; later pipeline rules
do transform it.  Rendering `"```\n**not bold**\n```"` with
`allowHtml = false` yields the body rewritten by the emphasis rule to
`<strong>not bold</strong>` inside the code block. -/
theorem c1_fence_body_transformed :
    parseMarkdown "```\n**not bold**\n```" false =
      "<pre class=\"code-block\" data-lang=\"\"><code><strong>not bold</strong></code></pre>" := by
  decide

/-- **C2, counterexample.**  The claim says every `![alt](url)` produces an
image element.  It does not: the link rule runs first and its pattern
cross-matches `[alt](url)`, so no image element is produced. -/
theorem c2_image_cex :
    subStr "<img" (parseMarkdown "![alt](url)" false) = false := by decide

/-- **C2, amended.**  Images are processed after links and the link pattern
does cross-match the image construct whenever the alt text is nonempty: the
link rule consumes `[alt](url)`, leaving a literal `!` before an anchor
element.  Only an image with empty alt text (`![](url)`), which the link
pattern cannot match, reaches the image rule and yields an image element. -/
theorem c2_image_after_link :
    parseMarkdown "![alt](url)" false =
      "<p>!<a href=\"url\" target=\"_blank\" rel=\"noopener noreferrer\">alt</a></p>" ∧
    parseMarkdown "![](url)" false =
      "<img src=\"url\" alt=\"\" class=\"markdown-image\" />" := by
  constructor
  · decide
  · decide

/-- **C3.**  `parseMarkdown` is a total, deterministic, pure function: it is
defined as a Lean function `String → Bool → String` (hence total — it returns
a string on every input and cannot throw), and two calls with equal arguments
return equal results. -/
theorem c3_total_deterministic (s₁ s₂ : String) (b₁ b₂ : Bool)
    (hs : s₁ = s₂) (hb : b₁ = b₂) :
    parseMarkdown s₁ b₁ = parseMarkdown s₂ b₂ := by
  rw [hs, hb]

/-- Witness for `c3_total_deterministic` at a concrete input. -/
theorem c3_total_deterministic_witness :
    parseMarkdown "# a" false = parseMarkdown "# a" false :=
  c3_total_deterministic "# a" "# a" false false rfl rfl

/-- **C4.**  With `allowHtml = false` the escape stage replaces `&` then `<`
then `>`, in that order, before any markdown transform runs (the pipeline
factors through exactly these three replacements); with `allowHtml = true`
the escape stage is skipped.  Consequently `render("<script>", false)`
contains no literal `<script>`, while `render("<b>x</b>", true)` contains the
literal tag `<b>`. -/
theorem c4_escape_stage :
    (∀ s : String, parseMarkdown s false =
      String.mk (mdStages (runScan (litM ['>'] "&gt;".data)
        (runScan (litM ['<'] "&lt;".data)
          (runScan (litM ['&'] "&amp;".data) s.data))))) ∧
    (∀ s : String, parseMarkdown s true = String.mk (mdStages s.data)) ∧
    subStr "<script>" (parseMarkdown "<script>" false) = false ∧
    subStr "<b>" (parseMarkdown "<b>x</b>" true) = true := by
  refine ⟨fun s => rfl, fun s => rfl, ?_, ?_⟩
  · decide
  · decide

/-- **C5.**  Bold markers are resolved before italic markers:
`render("**_x_**", false)` yields bold wrapping italic, with properly nested
tags. -/
theorem c5_bold_before_italic :
    parseMarkdown "**_x_**" false = "<strong><em>x</em></strong>" := by decide

/-- **C6.**  Rendering the empty string with `allowHtml = false` returns the
empty string: the paragraph wrapper added around the empty content is removed
by the empty-paragraph cleanup. -/
theorem c6_empty : parseMarkdown "" false = "" := by decide

/-- **C8.**  `highlight("return x", "python")` wraps the whole-word occurrence
of `return` in a keyword span and leaves `x` outside any span. -/
theorem c8_keyword_highlight :
    highlightCode "return x" "python" = "<span class=\"keyword\">return</span> x" := by decide

/-! ### Identity of `highlightCode` on plain text (claim C9) -/

theorem strPass_id : ∀ (fuel : Nat) (prev : Option Char) (l : List Char),
    (∀ c ∈ l, isQuoteC c = false) → scanWith stringLitM fuel prev l = l
  | 0, _, _, _ => rfl
  | _ + 1, _, [], _ => rfl
  | fuel + 1, prev, c :: rest, h => by
    have hc : isQuoteC c = false := h c (List.mem_cons_self c rest)
    have hm : stringLitM prev (c :: rest) = none := by
      simp [stringLitM, hc]
    simp only [scanWith, hm]
    exact congrArg (c :: ·) (strPass_id fuel (some c) rest
      (fun d hd => h d (List.mem_cons_of_mem _ hd)))

theorem lineCommentPass_id : ∀ (fuel : Nat) (prev : Option Char) (l : List Char),
    containsSub ('/' :: '/' :: []) l = false → containsSub ['#'] l = false →
    scanWith lineCommentM fuel prev l = l
  | 0, _, _, _, _ => rfl
  | _ + 1, _, [], _, _ => rfl
  | fuel + 1, prev, c :: rest, h1, h2 => by
    rw [containsSub, Bool.or_eq_false_iff] at h1 h2
    have hm : lineCommentM prev (c :: rest) = none := by
      unfold lineCommentM
      rw [if_neg (by rw [h1.1]; exact Bool.false_ne_true),
          if_neg (by rw [h2.1]; exact Bool.false_ne_true)]
    simp only [scanWith, hm]
    exact congrArg (c :: ·) (lineCommentPass_id fuel (some c) rest h1.2 h2.2)

theorem blockCommentPass_id : ∀ (fuel : Nat) (prev : Option Char) (l : List Char),
    containsSub ('/' :: '*' :: []) l = false →
    scanWith blockCommentM fuel prev l = l
  | 0, _, _, _ => rfl
  | _ + 1, _, [], _ => rfl
  | fuel + 1, prev, c :: rest, h => by
    rw [containsSub, Bool.or_eq_false_iff] at h
    have hm : blockCommentM prev (c :: rest) = none := by
      unfold blockCommentM
      rw [if_neg (by rw [h.1]; exact Bool.false_ne_true)]
    simp only [scanWith, hm]
    exact congrArg (c :: ·) (blockCommentPass_id fuel (some c) rest h.2)

theorem kwM_none_of (kw : List Char) (prev : Option Char) (l : List Char)
    (h : kwHereB kw prev l = false) : kwM kw prev l = none := by
  unfold kwHereB at h
  unfold kwM
  by_cases hA : (kw.isPrefixOf l && prevNonWord prev) = true
  · rw [hA, Bool.true_and] at h
    have hw : wordNext ((l.drop kw.length).head?) = true := by
      revert h; cases wordNext ((l.drop kw.length).head?) <;> simp
    rw [if_pos hA, if_pos hw]
  · rw [if_neg hA]

theorem kwPass_id (kw : List Char) : ∀ (fuel : Nat) (prev : Option Char) (l : List Char),
    hasWholeWord kw prev l = false → scanWith (kwM kw) fuel prev l = l
  | 0, _, _, _ => rfl
  | _ + 1, _, [], _ => rfl
  | fuel + 1, prev, c :: rest, h => by
    rw [hasWholeWord, Bool.or_eq_false_iff] at h
    have hm : kwM kw prev (c :: rest) = none := kwM_none_of kw prev (c :: rest) h.1
    simp only [scanWith, hm]
    exact congrArg (c :: ·) (kwPass_id kw fuel (some c) rest h.2)

theorem kwFold_id : ∀ (kws : List (List Char)) (l : List Char),
    (∀ kw ∈ kws, hasWholeWord kw none l = false) →
    kws.foldl (fun acc kw => runScan (kwM kw) acc) l = l
  | [], _, _ => rfl
  | kw :: kws, l, h => by
    have h1 : runScan (kwM kw) l = l :=
      kwPass_id kw l.length none l (h kw (List.mem_cons_self kw kws))
    rw [List.foldl_cons, h1]
    exact kwFold_id kws l (fun k hk => h k (List.mem_cons_of_mem _ hk))

theorem numberPass_id : ∀ (fuel : Nat) (prev : Option Char) (l : List Char),
    (∀ c ∈ l, isDigitC c = false) → scanWith numberM fuel prev l = l
  | 0, _, _, _ => rfl
  | _ + 1, _, [], _ => rfl
  | fuel + 1, prev, c :: rest, h => by
    have hc : isDigitC c = false := h c (List.mem_cons_self c rest)
    have hm : numberM prev (c :: rest) = none := by
      unfold numberM
      simp [hc]
    simp only [scanWith, hm]
    exact congrArg (c :: ·) (numberPass_id fuel (some c) rest
      (fun d hd => h d (List.mem_cons_of_mem _ hd)))

/-- **C9.**  `highlightCode` is the identity on plain text: if the code
contains no quote character (double, single or backtick), no `//`, `#` or
`/*` sequence, no decimal digit, and no whole-word occurrence of any keyword
of the language's keyword table, then every pass leaves it unchanged. -/
theorem c9_highlight_identity (code language : String)
    (hq : ∀ c ∈ code.data, isQuoteC c = false)
    (hsl : containsSub "//".data code.data = false)
    (hsh : containsSub "#".data code.data = false)
    (hbc : containsSub "/*".data code.data = false)
    (hd : ∀ c ∈ code.data, isDigitC c = false)
    (hkw : ∀ kw ∈ kwList language, hasWholeWord kw none code.data = false) :
    highlightCode code language = code := by
  unfold highlightCode
  rw [show runScan stringLitM code.data = code.data from
        strPass_id code.data.length none code.data hq,
      show runScan lineCommentM code.data = code.data from
        lineCommentPass_id code.data.length none code.data hsl hsh,
      show runScan blockCommentM code.data = code.data from
        blockCommentPass_id code.data.length none code.data hbc,
      kwFold_id (kwList language) code.data hkw,
      show runScan numberM code.data = code.data from
        numberPass_id code.data.length none code.data hd]

/-- Witness for `c9_highlight_identity` at a concrete input. -/
theorem c9_highlight_identity_witness :
    highlightCode "hello world" "python" = "hello world" :=
  c9_highlight_identity "hello world" "python" (by decide) (by decide) (by decide)
    (by decide) (by decide) (by decide)

/-- **C10, counterexample.**  The claim says that for every input string and
every value of `allowHtml` the output contains no `<p></p>`.  With
`allowHtml = true`, the single non-rescanning cleanup pass leaves one behind
on nested empty paragraphs. -/
theorem c10_empty_paragraph_cex :
    subStr "<p></p>" (parseMarkdown "<p><p></p></p>" true) = true := by decide


/-! ### Generic facts about the scanner -/

theorem scanWith_fuel_irrel (m : Matcher) : ∀ (f₁ : Nat) (l : List Char) (f₂ : Nat)
    (prev : Option Char), l.length ≤ f₁ → l.length ≤ f₂ →
    scanWith m f₁ prev l = scanWith m f₂ prev l := by
  intro f₁
  induction f₁ with
  | zero =>
    intro l f₂ prev h1 _
    have : l = [] := List.eq_nil_of_length_eq_zero (Nat.le_zero.mp h1)
    subst this
    cases f₂ <;> rfl
  | succ f ih =>
    intro l f₂ prev h1 h2
    cases l with
    | nil => cases f₂ <;> rfl
    | cons c rest =>
      cases f₂ with
      | zero => simp at h2
      | succ f₂ =>
        simp only [scanWith]
        cases hm : m prev (c :: rest) with
        | none =>
          exact congrArg (c :: ·) (ih rest f₂ (some c)
            (by simp at h1; omega) (by simp at h2; omega))
        | some rk =>
          obtain ⟨r, k⟩ := rk
          by_cases hk : k = 0
          · simp only [hk, if_pos rfl]
            exact congrArg (c :: ·) (ih rest f₂ (some c)
              (by simp at h1; omega) (by simp at h2; omega))
          · simp only [if_neg hk]
            refine congrArg (r ++ ·) (ih _ f₂ _ ?_ ?_) <;>
              simp only [List.length_drop, List.length_cons] <;>
              simp only [List.length_cons] at h1 h2 <;> omega

theorem lastOr_ne_nil (l : List Char) (h : l ≠ []) (p₁ p₂ : Option Char) :
    lastOr l p₁ = lastOr l p₂ := by
  unfold lastOr
  cases hg : l.getLast? with
  | some c => rfl
  | none => exact absurd (List.getLast?_eq_none_iff.mp hg) h

theorem scanLit_prev_irrel (pat repl : List Char) : ∀ (fuel : Nat) (l : List Char)
    (p₁ p₂ : Option Char),
    scanWith (litM pat repl) fuel p₁ l = scanWith (litM pat repl) fuel p₂ l := by
  intro fuel
  induction fuel with
  | zero => intro l p₁ p₂; rfl
  | succ f ih =>
    intro l p₁ p₂
    cases l with
    | nil => rfl
    | cons c rest =>
      cases hm : litM pat repl p₁ (c :: rest) with
      | none =>
        have hm2 : litM pat repl p₂ (c :: rest) = none := hm
        simp only [scanWith, hm, hm2]
      | some rk =>
        have hm2 : litM pat repl p₂ (c :: rest) = some rk := hm
        obtain ⟨r, k⟩ := rk
        by_cases hk : k = 0
        · simp [scanWith, hm, hm2, hk]
        · simp only [scanWith, hm, hm2, if_neg hk]
          rw [lastOr_ne_nil (List.take k (c :: rest))
                (by cases k with
                    | zero => exact absurd rfl hk
                    | succ k => exact List.cons_ne_nil c _) p₁ p₂]

theorem containsSub_iff (pat : List Char) (hp : pat ≠ []) : ∀ (l : List Char),
    containsSub pat l = true ↔ ∃ j, pat.isPrefixOf (l.drop j) = true := by
  intro l
  induction l with
  | nil =>
    simp only [containsSub]
    constructor
    · intro h; exact absurd (List.isEmpty_iff.mp h) hp
    · rintro ⟨j, hj⟩
      rw [List.drop_nil] at hj
      cases pat with
      | nil => exact absurd rfl hp
      | cons a b => simp [List.isPrefixOf] at hj
  | cons c rest ih =>
    simp only [containsSub, Bool.or_eq_true]
    constructor
    · rintro (h | h)
      · exact ⟨0, h⟩
      · obtain ⟨j, hj⟩ := ih.mp h
        exact ⟨j + 1, hj⟩
    · rintro ⟨j, hj⟩
      cases j with
      | zero => exact Or.inl hj
      | succ j => exact Or.inr (ih.mpr ⟨j, hj⟩)

theorem containsSub_false_iff (pat : List Char) (hp : pat ≠ []) (l : List Char) :
    containsSub pat l = false ↔ ∀ j, pat.isPrefixOf (l.drop j) = false := by
  constructor
  · intro h j
    by_contra hj
    rw [Bool.not_eq_false] at hj
    rw [(containsSub_iff pat hp l).mpr ⟨j, hj⟩] at h
    exact absurd h (by simp)
  · intro h
    by_contra hc
    rw [Bool.not_eq_false] at hc
    obtain ⟨j, hj⟩ := (containsSub_iff pat hp l).mp hc
    rw [h j] at hj
    exact Bool.false_ne_true hj

theorem scanLit_id (pat repl : List Char) : ∀ (fuel : Nat) (prev : Option Char)
    (l : List Char), containsSub pat l = false →
    scanWith (litM pat repl) fuel prev l = l
  | 0, _, _, _ => rfl
  | _ + 1, _, [], _ => rfl
  | fuel + 1, prev, c :: rest, h => by
    rw [containsSub, Bool.or_eq_false_iff] at h
    have hm : litM pat repl prev (c :: rest) = none := by
      unfold litM
      rw [if_neg (by rw [h.1]; exact Bool.false_ne_true)]
    simp only [scanWith, hm]
    exact congrArg (c :: ·) (scanLit_id pat repl fuel (some c) rest h.2)

theorem scanLit_append (pat repl : List Char) : ∀ (a : List Char)
    (fuel : Nat) (prev : Option Char) (b : List Char), (a ++ b).length ≤ fuel →
    (∀ j, j < a.length → pat.isPrefixOf ((a ++ b).drop j) = false) →
    scanWith (litM pat repl) fuel prev (a ++ b) =
      a ++ scanWith (litM pat repl) b.length none b := by
  intro a
  induction a with
  | nil =>
    intro fuel prev b hf _
    simp only [List.nil_append, List.length_nil] at *
    rw [scanWith_fuel_irrel _ fuel b b.length prev hf (Nat.le_refl _),
        scanLit_prev_irrel pat repl b.length b prev none]
  | cons c a' ih =>
    intro fuel prev b hf hocc
    cases fuel with
    | zero => simp at hf
    | succ f =>
      have h0 : pat.isPrefixOf (c :: (a' ++ b)) = false := by
        have := hocc 0 (by simp)
        simpa using this
      have hm : litM pat repl prev (c :: (a' ++ b)) = none := by
        unfold litM
        rw [if_neg (by rw [h0]; exact Bool.false_ne_true)]
      simp only [List.cons_append, scanWith, List.append_eq, hm]
      refine congrArg (c :: ·) (ih f (some c) b (by simp at hf ⊢; omega) ?_)
      intro j hj
      have := hocc (j + 1) (by simp at hj ⊢; omega)
      simpa using this

theorem prefix_append_cases {p a b : List Char} (h : p.isPrefixOf (a ++ b) = true) :
    (p.length ≤ a.length ∧ p.isPrefixOf a = true) ∨
    (a.length < p.length ∧ a.isPrefixOf p = true ∧
      (p.drop a.length).isPrefixOf b = true) := by
  rw [List.isPrefixOf_iff_prefix] at h
  by_cases hl : p.length ≤ a.length
  · left
    refine ⟨hl, ?_⟩
    rw [List.isPrefixOf_iff_prefix]
    have hp2 : p = a.take p.length := by
      have h2 := List.prefix_iff_eq_take.mp h
      rw [List.take_append_eq_append_take, Nat.sub_eq_zero_of_le hl,
          List.take_zero, List.append_nil] at h2
      exact h2
    rw [hp2]
    exact List.take_prefix _ _
  · right
    push_neg at hl
    have hp2 : p = a ++ b.take (p.length - a.length) := by
      have h2 := List.prefix_iff_eq_take.mp h
      rw [List.take_append_eq_append_take,
          List.take_of_length_le (Nat.le_of_lt hl)] at h2
      exact h2
    refine ⟨hl, ?_, ?_⟩
    · rw [List.isPrefixOf_iff_prefix, hp2]
      exact ⟨b.take (p.length - a.length), rfl⟩
    · rw [List.isPrefixOf_iff_prefix]
      have hd : p.drop a.length = b.take (p.length - a.length) := by
        conv_lhs => rw [hp2]
        rw [List.drop_append_eq_append_drop, List.drop_of_length_le (Nat.le_refl _),
            Nat.sub_self, List.drop_zero, List.nil_append]
      rw [hd]
      exact List.take_prefix _ _


/-! ### Facts about the window invariant `good` -/

theorem good_drops : ∀ (l : List Char),
    good l = true ↔ ∀ j, localOk (l.drop j) = true := by
  intro l
  induction l with
  | nil =>
    constructor
    · intro _ j
      rw [List.drop_nil]
      rfl
    · intro _
      rfl
  | cons c rest ih =>
    simp only [good, Bool.and_eq_true]
    constructor
    · rintro ⟨h1, h2⟩ j
      cases j with
      | zero => exact h1
      | succ j => exact (ih.mp h2) j
    · intro h
      exact ⟨h 0, ih.mpr (fun j => h (j + 1))⟩

theorem localOk_of_ne (c : Char) (l : List Char) (h : c ≠ '<') :
    localOk (c :: l) = true := by
  simp only [localOk, if_neg h]

theorem good_head_tail {c : Char} {rest : List Char} (h : good (c :: rest) = true) :
    localOk (c :: rest) = true ∧ good rest = true := by
  simpa only [good, Bool.and_eq_true] using h

theorem good_drop (k : Nat) (l : List Char) (h : good l = true) :
    good (l.drop k) = true := by
  rw [good_drops] at h ⊢
  intro j
  rw [List.drop_drop]
  exact h (k + j)

theorem localOk_one : localOk ['<'] = false := rfl

theorem localOk_two (d : Char) : localOk ['<', d] =
    (if d = 'p' then false else if d = '/' then false else isLS1 d) := rfl

theorem localOk_three (d e : Char) (a : List Char) : localOk ('<' :: d :: e :: a) =
    (if d = 'p' then e == 'r'
     else if d = '/' then (if e = 'p' then a.head? == some 'r' else isLS2 e)
     else isLS1 d) := rfl

theorem localOk_four (a b c d : Char) (r s : List Char) :
    localOk (a :: b :: c :: d :: r) = localOk (a :: b :: c :: d :: s) := rfl

theorem localOk_take_eq (x : List Char) (m : Nat) (h : 4 ≤ m) :
    localOk (x.take m) = localOk x := by
  obtain ⟨m', rfl⟩ : ∃ m', m = m' + 4 := ⟨m - 4, by omega⟩
  match x with
  | [] => rfl
  | [a] => simp [List.take]
  | [a, b] => simp [List.take]
  | [a, b, c] => simp [List.take]
  | a :: b :: c :: d :: r =>
    show localOk (a :: b :: c :: d :: List.take m' r) = _
    exact localOk_four a b c d (List.take m' r) r

theorem keepChar_of_isLS1 (x : Char) (h : isLS1 x = true) : keepChar x = true := by
  unfold isLS1 at h
  simp only [Bool.or_eq_true, decide_eq_true_eq] at h
  rcases h with ((((((((h|h)|h)|h)|h)|h)|h)|h)|h)|h <;> subst h <;> decide

theorem keepChar_of_isLS2 (x : Char) (h : isLS2 x = true) : keepChar x = true := by
  unfold isLS2 at h
  simp only [Bool.or_eq_true, decide_eq_true_eq] at h
  rcases h with (((((((h|h)|h)|h)|h)|h)|h)|h)|h <;> subst h <;> decide

theorem good_append (a b : List Char) (ha : good a = true) (hb : good b = true) :
    good (a ++ b) = true := by
  induction a with
  | nil => exact hb
  | cons c a' ih =>
    obtain ⟨h1, h2⟩ := good_head_tail ha
    have ihr := ih h2
    show good (c :: (a' ++ b)) = true
    rw [good, Bool.and_eq_true]
    refine ⟨?_, ihr⟩
    by_cases hc : c = '<'
    · subst hc
      match a', h1 with
      | [], h1 => rw [localOk_one] at h1; exact absurd h1 (by simp)
      | [d], h1 =>
        rw [localOk_two] at h1
        by_cases hd : d = 'p'
        · rw [if_pos hd] at h1; exact absurd h1 (by simp)
        · by_cases hd2 : d = '/'
          · rw [if_neg hd, if_pos hd2] at h1; exact absurd h1 (by simp)
          · rw [if_neg hd, if_neg hd2] at h1
            show localOk ('<' :: d :: b) = true
            cases b with
            | nil => rw [localOk_two, if_neg hd, if_neg hd2]; exact h1
            | cons y b' => rw [localOk_three, if_neg hd, if_neg hd2]; exact h1
      | d :: e :: a'', h1 =>
        rw [localOk_three] at h1
        show localOk ('<' :: d :: e :: (a'' ++ b)) = true
        rw [localOk_three]
        by_cases hd : d = 'p'
        · rw [if_pos hd] at h1 ⊢; exact h1
        · by_cases hd2 : d = '/'
          · rw [if_neg hd, if_pos hd2] at h1 ⊢
            by_cases he : e = 'p'
            · rw [if_pos he] at h1 ⊢
              cases a'' with
              | nil => exact absurd h1 (by simp)
              | cons f a₃ => exact h1
            · rw [if_neg he] at h1 ⊢; exact h1
          · rw [if_neg hd, if_neg hd2] at h1 ⊢; exact h1
    · exact localOk_of_ne c _ hc

theorem good_prefix_succ : ∀ (a : List Char) (x : Char) (b : List Char),
    good (a ++ x :: b) = true → keepChar x = false → good a = true := by
  intro a
  induction a with
  | nil => intro x b _ _; rfl
  | cons c a' ih =>
    intro x b h hx
    obtain ⟨h1, h2⟩ := good_head_tail (show good (c :: (a' ++ x :: b)) = true from h)
    have ihr := ih x b h2 hx
    rw [good, Bool.and_eq_true]
    refine ⟨?_, ihr⟩
    by_cases hc : c = '<'
    · subst hc
      match a', h1 with
      | [], h1 =>
        exfalso
        simp only [List.nil_append] at h1
        cases b with
        | nil =>
          rw [localOk_two] at h1
          by_cases hx1 : x = 'p'
          · rw [if_pos hx1] at h1; exact absurd h1 (by simp)
          · by_cases hx2 : x = '/'
            · rw [if_neg hx1, if_pos hx2] at h1; exact absurd h1 (by simp)
            · rw [if_neg hx1, if_neg hx2] at h1
              rw [keepChar_of_isLS1 x h1] at hx
              simp at hx
        | cons y b' =>
          rw [localOk_three] at h1
          by_cases hx1 : x = 'p'
          · subst hx1; simp [keepChar] at hx
          · by_cases hx2 : x = '/'
            · subst hx2; simp [keepChar] at hx
            · rw [if_neg hx1, if_neg hx2] at h1
              rw [keepChar_of_isLS1 x h1] at hx
              simp at hx
      | [d], h1 =>
        show localOk ['<', d] = true
        rw [localOk_two]
        simp only [List.cons_append, List.nil_append] at h1
        rw [localOk_three] at h1
        by_cases hd : d = 'p'
        · exfalso
          rw [if_pos hd] at h1
          have : x = 'r' := by simpa using h1
          subst this
          simp [keepChar] at hx
        · by_cases hd2 : d = '/'
          · exfalso
            rw [if_neg hd, if_pos hd2] at h1
            by_cases hx1 : x = 'p'
            · subst hx1; simp [keepChar] at hx
            · rw [if_neg hx1] at h1
              rw [keepChar_of_isLS2 x h1] at hx
              simp at hx
          · rw [if_neg hd, if_neg hd2] at h1 ⊢
            exact h1
      | d :: e :: a'', h1 =>
        show localOk ('<' :: d :: e :: a'') = true
        simp only [List.cons_append] at h1
        rw [localOk_three] at h1
        rw [localOk_three]
        by_cases hd : d = 'p'
        · rw [if_pos hd] at h1 ⊢; exact h1
        · by_cases hd2 : d = '/'
          · rw [if_neg hd, if_pos hd2] at h1 ⊢
            by_cases he : e = 'p'
            · rw [if_pos he] at h1 ⊢
              cases a'' with
              | nil =>
                exfalso
                simp only [List.nil_append, List.head?] at h1
                have : x = 'r' := by simpa using h1
                subst this
                simp [keepChar] at hx
              | cons f a₃ => exact h1
            · rw [if_neg he] at h1 ⊢; exact h1
          · rw [if_neg hd, if_neg hd2] at h1 ⊢; exact h1
    · exact localOk_of_ne c _ hc

theorem good_dropWhileP (P : Char → Bool) : ∀ (l : List Char), good l = true →
    good (l.dropWhile P) = true := by
  intro l
  induction l with
  | nil => intro _; rfl
  | cons c rest ih =>
    intro h
    obtain ⟨_, h2⟩ := good_head_tail h
    rw [List.dropWhile_cons]
    by_cases hp : P c = true
    · rw [if_pos hp]; exact ih h2
    · rw [if_neg hp]; exact h


/-! ### `good` and the character classes -/

theorem ws_not_keep (c : Char) (h : isJsWs c = true) : keepChar c = false := by
  unfold isJsWs at h
  unfold keepChar
  simp only [Bool.or_eq_true, decide_eq_true_eq, Bool.and_eq_true] at h
  simp only [Bool.or_eq_false_iff, Bool.and_eq_false_iff, decide_eq_false_iff_not]
  omega

theorem lineTerm_not_keep (c : Char) (h : isLineTerm c = true) : keepChar c = false := by
  unfold isLineTerm at h
  unfold keepChar
  simp only [Bool.or_eq_true, decide_eq_true_eq, Bool.and_eq_true] at h
  simp only [Bool.or_eq_false_iff, Bool.and_eq_false_iff, decide_eq_false_iff_not]
  omega

theorem good_trimJs (l : List Char) (h : good l = true) : good (trimJs l) = true := by
  unfold trimJs
  have hgu : good (l.dropWhile isJsWs) = true := good_dropWhileP isJsWs l h
  have hsplit : ((l.dropWhile isJsWs).reverse.dropWhile isJsWs).reverse ++
      ((l.dropWhile isJsWs).reverse.takeWhile isJsWs).reverse = l.dropWhile isJsWs := by
    rw [← List.reverse_append, List.takeWhile_append_dropWhile, List.reverse_reverse]
  cases hd : ((l.dropWhile isJsWs).reverse.takeWhile isJsWs).reverse with
  | nil =>
    rw [hd, List.append_nil] at hsplit
    rw [hsplit]
    exact hgu
  | cons x d' =>
    have hx : isJsWs x = true := by
      have hmem : x ∈ (l.dropWhile isJsWs).reverse.takeWhile isJsWs := by
        have h2 : x ∈ ((l.dropWhile isJsWs).reverse.takeWhile isJsWs).reverse := by
          rw [hd]; exact List.mem_cons_self x d'
        exact List.mem_reverse.mp h2
      exact List.mem_takeWhile_imp hmem
    refine good_prefix_succ _ x d' ?_ (ws_not_keep x hx)
    rw [hd] at hsplit
    rw [hsplit]
    exact hgu

/-! ### What a `good` string cannot contain -/

theorem good_not_pTagO (l : List Char) (h : good l = true) :
    containsSub pTagO l = false := by
  rw [containsSub_false_iff pTagO (by decide) l]
  intro j
  by_contra hj
  rw [Bool.not_eq_false] at hj
  obtain ⟨t, ht⟩ := List.isPrefixOf_iff_prefix.mp hj
  have hl := (good_drops l).mp h j
  rw [← ht, show pTagO ++ t = '<' :: 'p' :: '>' :: t from rfl, localOk_three] at hl
  simp at hl

theorem good_not_pTagC (l : List Char) (h : good l = true) :
    containsSub pTagC l = false := by
  rw [containsSub_false_iff pTagC (by decide) l]
  intro j
  by_contra hj
  rw [Bool.not_eq_false] at hj
  obtain ⟨t, ht⟩ := List.isPrefixOf_iff_prefix.mp hj
  have hl := (good_drops l).mp h j
  rw [← ht, show pTagC ++ t = '<' :: '/' :: 'p' :: '>' :: t from rfl, localOk_three] at hl
  simp at hl

theorem good_not_lt2 (l : List Char) (h : good l = true) :
    containsSub ('<' :: '<' :: []) l = false := by
  rw [containsSub_false_iff _ (by decide) l]
  intro j
  by_contra hj
  rw [Bool.not_eq_false] at hj
  obtain ⟨t, ht⟩ := List.isPrefixOf_iff_prefix.mp hj
  have hl := (good_drops l).mp h j
  rw [← ht] at hl
  cases t with
  | nil =>
    rw [show ('<' :: '<' :: []) ++ [] = ['<', '<'] from rfl, localOk_two] at hl
    simp at hl
    exact absurd hl (by decide)
  | cons y t' =>
    rw [show ('<' :: '<' :: []) ++ y :: t' = '<' :: '<' :: y :: t' from rfl,
        localOk_three] at hl
    simp at hl
    exact absurd hl (by decide)

theorem good_not_lto (l : List Char) (h : good l = true) :
    containsSub ('<' :: 'o' :: []) l = false := by
  rw [containsSub_false_iff _ (by decide) l]
  intro j
  by_contra hj
  rw [Bool.not_eq_false] at hj
  obtain ⟨t, ht⟩ := List.isPrefixOf_iff_prefix.mp hj
  have hl := (good_drops l).mp h j
  rw [← ht] at hl
  cases t with
  | nil =>
    rw [show ('<' :: 'o' :: []) ++ [] = ['<', 'o'] from rfl, localOk_two] at hl
    simp at hl
    exact absurd hl (by decide)
  | cons y t' =>
    rw [show ('<' :: 'o' :: []) ++ y :: t' = '<' :: 'o' :: y :: t' from rfl,
        localOk_three] at hl
    simp at hl
    exact absurd hl (by decide)

/-! ### The generic preservation theorem for the pre-folding passes -/

theorem scan_keep_pre (m : Matcher)
    (H2 : ∀ (prev : Option Char) (c : Char) (rest : List Char), keepChar c = true →
      m prev (c :: rest) = none) :
    ∀ (pre : List Char), (∀ c ∈ pre, keepChar c = true) →
    ∀ (fuel : Nat) (prev : Option Char) (l : List Char),
    ∃ t, scanWith m fuel prev (pre ++ l) = pre ++ t := by
  intro pre
  induction pre with
  | nil => intro _ fuel prev l; exact ⟨scanWith m fuel prev l, rfl⟩
  | cons c pre' ih =>
    intro hp fuel prev l
    cases fuel with
    | zero => exact ⟨l, rfl⟩
    | succ f =>
      have hm := H2 prev c (pre' ++ l) (hp c (List.mem_cons_self c pre'))
      obtain ⟨t, ht⟩ := ih (fun d hd => hp d (List.mem_cons_of_mem _ hd)) f (some c) l
      refine ⟨t, ?_⟩
      show scanWith m (f + 1) prev (c :: (pre' ++ l)) = c :: (pre' ++ t)
      simp only [scanWith, hm]
      rw [ht]

theorem scanWith_nil (m : Matcher) : ∀ (fuel : Nat) (prev : Option Char),
    scanWith m fuel prev [] = [] := by
  intro fuel prev
  cases fuel <;> rfl

theorem scan_good (m : Matcher)
    (H2 : ∀ (prev : Option Char) (c : Char) (rest : List Char), keepChar c = true →
      m prev (c :: rest) = none)
    (H1 : ∀ (prev : Option Char) (l r : List Char) (k : Nat),
      m prev l = some (r, k) → good l = true → 1 ≤ k ∧ good r = true) :
    ∀ (fuel : Nat) (prev : Option Char) (l : List Char), good l = true →
    good (scanWith m fuel prev l) = true := by
  intro fuel
  induction fuel with
  | zero => intro prev l h; exact h
  | succ f ih =>
    intro prev l h
    cases l with
    | nil => rfl
    | cons c rest =>
      cases hm : m prev (c :: rest) with
      | some rk =>
        obtain ⟨r, k⟩ := rk
        obtain ⟨hk, hr⟩ := H1 prev (c :: rest) r k hm h
        simp only [scanWith, hm, if_neg (by omega : ¬ k = 0)]
        exact good_append r _ hr (ih _ _ (good_drop k (c :: rest) h))
      | none =>
        simp only [scanWith, hm]
        obtain ⟨h1, h2⟩ := good_head_tail h
        rw [good, Bool.and_eq_true]
        refine ⟨?_, ih (some c) rest h2⟩
        by_cases hc : c = '<'
        · subst hc
          cases rest with
          | nil =>
            rw [localOk_one] at h1
            exact absurd h1 (by simp)
          | cons d rest2 =>
            by_cases hd : d = 'p'
            · subst hd
              cases rest2 with
              | nil => rw [localOk_two] at h1; simp at h1
              | cons e rest3 =>
                rw [localOk_three, if_pos rfl] at h1
                have he : e = 'r' := by simpa using h1
                subst he
                obtain ⟨t, ht⟩ := scan_keep_pre m H2 ['p', 'r'] (by decide) f (some '<') rest3
                rw [show ('p' :: 'r' :: rest3) = ['p', 'r'] ++ rest3 from rfl, ht]
                rw [show ('<' :: (['p', 'r'] ++ t)) = '<' :: 'p' :: 'r' :: t from rfl,
                    localOk_three]
                simp
            · by_cases hd2 : d = '/'
              · subst hd2
                cases rest2 with
                | nil => rw [localOk_two] at h1; simp at h1
                | cons e rest3 =>
                  rw [localOk_three, if_neg (by decide : ¬ ('/' : Char) = 'p'),
                      if_pos rfl] at h1
                  by_cases he : e = 'p'
                  · subst he
                    rw [if_pos rfl] at h1
                    cases rest3 with
                    | nil => simp at h1
                    | cons f4 rest4 =>
                      have hf : f4 = 'r' := by simpa using h1
                      subst hf
                      obtain ⟨t, ht⟩ := scan_keep_pre m H2 ['/', 'p', 'r'] (by decide)
                        f (some '<') rest4
                      rw [show ('/' :: 'p' :: 'r' :: rest4) = ['/', 'p', 'r'] ++ rest4 from rfl,
                          ht]
                      rw [show ('<' :: (['/', 'p', 'r'] ++ t)) = '<' :: '/' :: 'p' :: 'r' :: t
                            from rfl, localOk_three]
                      simp
                  · rw [if_neg he] at h1
                    obtain ⟨t, ht⟩ := scan_keep_pre m H2 ['/', e]
                      (by intro x hx
                          rcases List.mem_cons.mp hx with h' | h'
                          · subst h'; decide
                          · rw [List.mem_singleton] at h'
                            subst h'
                            exact keepChar_of_isLS2 _ h1) f (some '<') rest3
                    rw [show ('/' :: e :: rest3) = ['/', e] ++ rest3 from rfl, ht]
                    rw [show ('<' :: (['/', e] ++ t)) = '<' :: '/' :: e :: t from rfl,
                        localOk_three, if_neg (by decide : ¬ ('/' : Char) = 'p'),
                        if_pos rfl, if_neg he]
                    exact h1
              · have hLS : isLS1 d = true := by
                  cases rest2 with
                  | nil => rw [localOk_two, if_neg hd, if_neg hd2] at h1; exact h1
                  | cons y r' => rw [localOk_three, if_neg hd, if_neg hd2] at h1; exact h1
                obtain ⟨t, ht⟩ := scan_keep_pre m H2 [d]
                  (by intro x hx
                      rw [List.mem_singleton] at hx
                      subst hx
                      exact keepChar_of_isLS1 _ hLS) f (some '<') rest2
                rw [show (d :: rest2) = [d] ++ rest2 from rfl, ht]
                cases t with
                | nil =>
                  rw [show ('<' :: ([d] ++ ([] : List Char))) = ['<', d] from rfl,
                      localOk_two, if_neg hd, if_neg hd2]
                  exact hLS
                | cons y t' =>
                  rw [show ('<' :: ([d] ++ y :: t')) = '<' :: d :: y :: t' from rfl,
                      localOk_three, if_neg hd, if_neg hd2]
                  exact hLS
        · exact localOk_of_ne c _ hc


/-! ### Small helpers for the per-pass lemmas -/

theorem findSub_spec (pat : List Char) : ∀ (l : List Char) (i : Nat),
    findSub pat l = some i → pat.isPrefixOf (l.drop i) = true := by
  intro l
  induction l with
  | nil =>
    intro i h
    unfold findSub at h
    by_cases he : pat.isEmpty
    · rw [if_pos he] at h
      cases h
      cases pat with
      | nil => rfl
      | cons a b => simp [List.isEmpty] at he
    · rw [if_neg he] at h
      cases h
  | cons c rest ih =>
    intro i h
    unfold findSub at h
    by_cases hp : pat.isPrefixOf (c :: rest) = true
    · rw [if_pos hp] at h
      cases h
      exact hp
    · rw [if_neg (by rw [Bool.not_eq_true] at hp; rw [hp]; exact Bool.false_ne_true)] at h
      cases hfs : findSub pat rest with
      | none => rw [hfs] at h; cases h
      | some i' =>
        rw [hfs] at h
        simp only [Option.map_some'] at h
        cases h
        exact ih i' hfs

theorem drop_len_takeWhile (P : Char → Bool) (l : List Char) :
    l.drop (l.takeWhile P).length = l.dropWhile P := by
  have h := List.drop_left (l.takeWhile P) (l.dropWhile P)
  rw [List.takeWhile_append_dropWhile] at h
  exact h

theorem head_dropWhile (P : Char → Bool) : ∀ (l : List Char) (x : Char),
    (l.dropWhile P).head? = some x → P x = false := by
  intro l
  induction l with
  | nil => intro x h; simp [List.dropWhile] at h
  | cons c rest ih =>
    intro x h
    rw [List.dropWhile_cons] at h
    by_cases hp : P c = true
    · rw [if_pos hp] at h
      exact ih x h
    · rw [if_neg hp] at h
      simp only [List.head?] at h
      cases h
      rw [Bool.not_eq_true] at hp
      exact hp

/-- A `takeWhile` capture whose violating successor is never a keep
character is `good`. -/
theorem good_takeWhileP (P : Char → Bool) (l : List Char) (hg : good l = true)
    (hP : ∀ x, P x = false → keepChar x = false) :
    good (l.takeWhile P) = true := by
  cases hdw : l.dropWhile P with
  | nil =>
    have : l.takeWhile P = l := by
      conv_rhs => rw [← List.takeWhile_append_dropWhile (p := P) (l := l)]
      rw [hdw, List.append_nil]
    rw [this]
    exact hg
  | cons x d =>
    have hsplit : l.takeWhile P ++ x :: d = l := by
      conv_rhs => rw [← List.takeWhile_append_dropWhile (p := P) (l := l)]
      rw [hdw]
    have hx : P x = false := by
      apply head_dropWhile P l
      rw [hdw]
      rfl
    exact good_prefix_succ _ x d (by rw [hsplit]; exact hg) (hP x hx)

theorem lineTerm_arg_not_keep (x : Char) (h : (!isLineTerm x) = false) :
    keepChar x = false := by
  rw [Bool.not_eq_false'] at h
  exact lineTerm_not_keep x h

theorem toNat_ofNat_valid (n : Nat) (h : n < 55296) : (Char.ofNat n).toNat = n := by
  unfold Char.ofNat
  rw [dif_pos (Or.inl h)]
  rfl

theorem lowerC_eq_lt (x : Char) (h : lowerC x = '<') : x = '<' := by
  unfold lowerC at h
  by_cases hc : (65 ≤ x.toNat && x.toNat ≤ 90) = true
  · rw [if_pos hc] at h
    simp only [Bool.and_eq_true, decide_eq_true_eq] at hc
    have h2 := congrArg Char.toNat h
    rw [toNat_ofNat_valid (x.toNat + 32) (by omega)] at h2
    have : ('<' : Char).toNat = 60 := by decide
    omega
  · rw [if_neg hc] at h
    exact h

theorem keep_lowerC_ne_lt (c : Char) (h : keepChar c = true) : lowerC c ≠ '<' := by
  intro habs
  have := lowerC_eq_lt c habs
  subst this
  exact absurd h (by decide)

theorem notPre_of_head_ne (a : Char) (as : List Char) (c : Char) (rest : List Char)
    (h : c ≠ a) : (a :: as).isPrefixOf (c :: rest) = false := by
  simp only [List.isPrefixOf]
  rw [show (a == c) = false from beq_eq_false_iff_ne.mpr (fun hh => h hh.symm),
      Bool.false_and]

theorem keep_not_ws (c : Char) (h : keepChar c = true) : isJsWs c = false := by
  by_contra hc
  rw [Bool.not_eq_false] at hc
  rw [ws_not_keep c hc] at h
  simp at h

theorem keep_not_digit (c : Char) (h : keepChar c = true) : isDigitC c = false := by
  unfold keepChar at h
  unfold isDigitC
  simp only [Bool.or_eq_true, Bool.and_eq_true, decide_eq_true_eq] at h
  simp only [Bool.and_eq_false_iff, decide_eq_false_iff_not]
  omega

theorem keep_not_hr (c : Char) (h : keepChar c = true) : isHrChar c = false := by
  unfold keepChar at h
  unfold isHrChar
  simp only [Bool.or_eq_true, Bool.and_eq_true, decide_eq_true_eq] at h
  simp only [Bool.or_eq_false_iff, decide_eq_false_iff_not]
  refine ⟨⟨?_, ?_⟩, ?_⟩ <;> intro hc <;> subst hc <;> revert h <;> decide


/-! ### H2 lemmas: no pre-folding matcher fires at a letter or `/` -/

theorem ite_eq_else {α : Sort _} {b : Bool} (x y : α) (h : b = false) :
    (if b = true then x else y) = y := by
  subst h; rfl

theorem ite_eq_then {α : Sort _} {b : Bool} (x y : α) (h : b = true) :
    (if b = true then x else y) = x := by
  subst h; rfl

theorem codeBlockM_keep (prev : Option Char) (c : Char) (rest : List Char)
    (hc : keepChar c = true) : codeBlockM prev (c :: rest) = none := by
  have hne : c ≠ btick := by intro h; subst h; exact absurd hc (by decide)
  unfold codeBlockM
  rw [ite_eq_else _ _ (notPre_of_head_ne btick _ c rest hne)]

theorem delim1M_keep (d : Char) (tagO tagC : List Char) (hd : keepChar d = false)
    (prev : Option Char) (c : Char) (rest : List Char) (hc : keepChar c = true) :
    delim1M d tagO tagC prev (c :: rest) = none := by
  have hne : ¬ c = d := by intro h; subst h; rw [hc] at hd; cases hd
  unfold delim1M
  split
  · rename_i c' rest' heq
    injection heq with h1 h2
    subst h1
    rw [if_neg hne]
  · rfl

theorem delim2M_keep (d : Char) (tagO tagC : List Char) (hd : keepChar d = false)
    (prev : Option Char) (c : Char) (rest : List Char) (hc : keepChar c = true) :
    delim2M d tagO tagC prev (c :: rest) = none := by
  have hne : c ≠ d := by intro h; subst h; rw [hc] at hd; cases hd
  unfold delim2M
  rw [ite_eq_else _ _ (notPre_of_head_ne d _ c rest hne)]

theorem headerM_keep (n : Nat) (hn : 1 ≤ n) (tagO tagC : List Char)
    (prev : Option Char) (c : Char) (rest : List Char) (hc : keepChar c = true) :
    headerM n tagO tagC prev (c :: rest) = none := by
  have hne : c ≠ '#' := by intro h; subst h; exact absurd hc (by decide)
  obtain ⟨m, rfl⟩ : ∃ m, n = m + 1 := ⟨n - 1, by omega⟩
  unfold headerM
  rw [ite_eq_else]
  rw [List.replicate_succ, notPre_of_head_ne '#' _ c rest hne, Bool.and_false]

theorem linkM_keep (prev : Option Char) (c : Char) (rest : List Char)
    (hc : keepChar c = true) : linkM prev (c :: rest) = none := by
  unfold linkM
  split
  · rename_i r heq
    injection heq with h1 h2
    subst h1
    exact absurd hc (by decide)
  · rfl

theorem imageM_keep (prev : Option Char) (c : Char) (rest : List Char)
    (hc : keepChar c = true) : imageM prev (c :: rest) = none := by
  unfold imageM
  split
  · rename_i r heq
    injection heq with h1 h2
    subst h1
    exact absurd hc (by decide)
  · rfl

theorem blockquoteM_keep (prev : Option Char) (c : Char) (rest : List Char)
    (hc : keepChar c = true) : blockquoteM prev (c :: rest) = none := by
  unfold blockquoteM
  split
  · rename_i r heq
    injection heq with h1 h2
    subst h1
    exact absurd hc (by decide)
  · rfl

theorem hrM_keep (prev : Option Char) (c : Char) (rest : List Char)
    (hc : keepChar c = true) : hrM prev (c :: rest) = none := by
  unfold hrM
  cases hb : atBOL prev with
  | false => rw [ite_eq_else _ _ rfl]
  | true =>
    rw [ite_eq_then _ _ rfl]
    have hrun : (c :: rest).takeWhile isHrChar = [] := by
      rw [List.takeWhile_cons, keep_not_hr c hc]
      rfl
    rw [hrun]
    rw [if_neg (by decide : ¬ 3 ≤ ([] : List Char).length)]

theorem ulItemM_keep (prev : Option Char) (c : Char) (rest : List Char)
    (hc : keepChar c = true) : ulItemM prev (c :: rest) = none := by
  have h1 : decide (c = '-') = false :=
    decide_eq_false (by intro h; subst h; exact absurd hc (by decide))
  have h2 : decide (c = '*') = false :=
    decide_eq_false (by intro h; subst h; exact absurd hc (by decide))
  unfold ulItemM
  split
  · rename_i c' rest' heq
    injection heq with h3 h4
    subst h3
    rw [ite_eq_else]
    rw [h1, h2, Bool.or_false, Bool.and_false]
  · rfl

theorem olItemM_keep (prev : Option Char) (c : Char) (rest : List Char)
    (hc : keepChar c = true) : olItemM prev (c :: rest) = none := by
  unfold olItemM
  cases hb : atBOL prev with
  | false => rw [ite_eq_else _ _ rfl]
  | true =>
    rw [ite_eq_then _ _ rfl]
    have hds : (c :: rest).takeWhile isDigitC = [] := by
      rw [List.takeWhile_cons, keep_not_digit c hc]
      rfl
    rw [hds]
    rw [if_pos (show ([] : List Char).length = 0 from rfl)]

theorem ulWrapM_keep (prev : Option Char) (c : Char) (rest : List Char)
    (hc : keepChar c = true) : ulWrapM prev (c :: rest) = none := by
  have hne : c ≠ '<' := by intro h; subst h; exact absurd hc (by decide)
  have hgl : ulGroupLen (c :: rest) = none := by
    unfold ulGroupLen
    rw [ite_eq_else _ _ (notPre_of_head_ne '<' _ c rest hne)]
  have htot : ulGroupsLen (c :: rest).length (c :: rest) = 0 := by
    rw [List.length_cons]
    show ulGroupsLen (rest.length + 1) (c :: rest) = 0
    simp only [ulGroupsLen, hgl]
  unfold ulWrapM
  simp only [htot, if_pos]

theorem taskUncheckedM_keep (prev : Option Char) (c : Char) (rest : List Char)
    (hc : keepChar c = true) : taskUncheckedM prev (c :: rest) = none := by
  have hne : c ≠ '<' := by intro h; subst h; exact absurd hc (by decide)
  unfold taskUncheckedM
  rw [ite_eq_else _ _ (notPre_of_head_ne '<' _ c rest hne)]

theorem taskCheckedM_keep (prev : Option Char) (c : Char) (rest : List Char)
    (hc : keepChar c = true) : taskCheckedM prev (c :: rest) = none := by
  have hfirst : decide (lowerC '<' = lowerC c) = false := by
    apply decide_eq_false
    rw [show lowerC '<' = '<' from by decide]
    intro h
    exact (keep_lowerC_ne_lt c hc) h.symm
  have hci : ciStarts "<li>[".data (c :: rest) = false := by
    unfold ciStarts
    rw [show ("<li>[".data) = '<' :: "li>[".data from rfl, List.zip_cons_cons,
        List.all_cons]
    show ((decide (lowerC '<' = lowerC c) && _) && _) = false
    rw [hfirst, Bool.false_and, Bool.false_and]
  unfold taskCheckedM
  rw [ite_eq_else _ _ hci]


/-! ### H1 lemmas: replacements of the pre-folding matchers are good -/

theorem takeWhile_split (P : Char → Bool) (l : List Char) :
    l.takeWhile P ++ l.drop (l.takeWhile P).length = l := by
  rw [drop_len_takeWhile, List.takeWhile_append_dropWhile]

theorem good_takeWhile_succ (P : Char → Bool) (l : List Char) (e : Char) (t : List Char)
    (hg : good l = true) (heq : l.drop (l.takeWhile P).length = e :: t)
    (he : keepChar e = false) : good (l.takeWhile P) = true := by
  apply good_prefix_succ (l.takeWhile P) e t ?_ he
  have hs : l.takeWhile P ++ e :: t = l := by
    rw [← heq]
    exact takeWhile_split P l
  rw [hs]
  exact hg

theorem wsContent_good (t cap : List Char) (k : Nat) (hg : good t = true)
    (h : matchWsContent t = some (cap, k)) : good cap = true ∧ 1 ≤ k := by
  simp only [matchWsContent] at h
  by_cases hw : (t.takeWhile isJsWs).length = 0
  · rw [if_pos hw] at h
    exact Option.noConfusion h
  · rw [if_neg hw] at h
    split at h
    · rename_i x xs hdrop
      simp only [Option.some.injEq, Prod.mk.injEq] at h
      obtain ⟨rfl, rfl⟩ := h
      constructor
      · exact good_takeWhileP _ _ (good_drop _ _ hg) lineTerm_arg_not_keep
      · omega
    · rename_i hdrop
      split at h
      · rename_i i hlast
        simp only [Option.some.injEq, Prod.mk.injEq] at h
        obtain ⟨rfl, rfl⟩ := h
        have hmem := List.mem_of_mem_getLast? hlast
        have hi : 1 ≤ i := by
          have := (List.mem_filter.mp hmem).2
          rw [Bool.and_eq_true] at this
          exact of_decide_eq_true this.1
        have htw : t.takeWhile isJsWs = t := by
          have hdw : t.dropWhile isJsWs = [] := by
            rw [← drop_len_takeWhile]
            exact hdrop
          conv_rhs => rw [← List.takeWhile_append_dropWhile (p := isJsWs) (l := t)]
          rw [hdw, List.append_nil]
        have hgw : good (t.takeWhile isJsWs) = true := by
          rw [htw]
          exact hg
        constructor
        · exact good_takeWhileP _ _ (good_drop _ _ hgw) lineTerm_arg_not_keep
        · omega
      · exact Option.noConfusion h

theorem headerM_good (n : Nat) (tagO tagC : List Char) (hO : good tagO = true)
    (hC : good tagC = true) (prev : Option Char) (l r : List Char) (k : Nat)
    (h : headerM n tagO tagC prev l = some (r, k)) (hg : good l = true) :
    1 ≤ k ∧ good r = true := by
  unfold headerM at h
  split at h
  · split at h
    · rename_i cap k' hws
      simp only [Option.some.injEq, Prod.mk.injEq] at h
      obtain ⟨rfl, rfl⟩ := h
      obtain ⟨hcap, hk⟩ := wsContent_good _ _ _ (good_drop n l hg) hws
      exact ⟨by omega, good_append _ _ (good_append _ _ hO hcap) hC⟩
    · exact Option.noConfusion h
  · exact Option.noConfusion h

theorem blockquoteM_good (prev : Option Char) (l r : List Char) (k : Nat)
    (h : blockquoteM prev l = some (r, k)) (hg : good l = true) :
    1 ≤ k ∧ good r = true := by
  unfold blockquoteM at h
  split at h
  · rename_i rest
    split at h
    · split at h
      · rename_i cap k' hws
        simp only [Option.some.injEq, Prod.mk.injEq] at h
        obtain ⟨rfl, rfl⟩ := h
        obtain ⟨hcap, hk⟩ := wsContent_good _ _ _ (good_head_tail hg).2 hws
        exact ⟨by omega, good_append _ _ (good_append _ _ (by decide) hcap) (by decide)⟩
      · exact Option.noConfusion h
    · exact Option.noConfusion h
  · exact Option.noConfusion h

theorem ulItemM_good (prev : Option Char) (l r : List Char) (k : Nat)
    (h : ulItemM prev l = some (r, k)) (hg : good l = true) :
    1 ≤ k ∧ good r = true := by
  unfold ulItemM at h
  split at h
  · rename_i c rest
    split at h
    · split at h
      · rename_i cap k' hws
        simp only [Option.some.injEq, Prod.mk.injEq] at h
        obtain ⟨rfl, rfl⟩ := h
        obtain ⟨hcap, hk⟩ := wsContent_good _ _ _ (good_head_tail hg).2 hws
        exact ⟨by omega, good_append _ _ (good_append _ _ (by decide) hcap) (by decide)⟩
      · exact Option.noConfusion h
    · exact Option.noConfusion h
  · exact Option.noConfusion h

theorem olItemM_good (prev : Option Char) (l r : List Char) (k : Nat)
    (h : olItemM prev l = some (r, k)) (hg : good l = true) :
    1 ≤ k ∧ good r = true := by
  simp only [olItemM] at h
  split at h
  · split at h
    · exact Option.noConfusion h
    · split at h
      · rename_i rest hdrop
        split at h
        · rename_i cap k' hws
          simp only [Option.some.injEq, Prod.mk.injEq] at h
          obtain ⟨rfl, rfl⟩ := h
          have hrest : good rest = true := by
            have : rest = (l.drop (l.takeWhile isDigitC).length).drop 1 := by
              rw [hdrop]
              rfl
            rw [this]
            exact good_drop 1 _ (good_drop _ _ hg)
          obtain ⟨hcap, hk⟩ := wsContent_good _ _ _ hrest hws
          exact ⟨by omega, good_append _ _ (good_append _ _ (by decide) hcap) (by decide)⟩
        · exact Option.noConfusion h
      · exact Option.noConfusion h
  · exact Option.noConfusion h

theorem delim1M_good (d : Char) (tagO tagC : List Char) (hO : good tagO = true)
    (hC : good tagC = true) (hd : keepChar d = false) (prev : Option Char)
    (l r : List Char) (k : Nat) (h : delim1M d tagO tagC prev l = some (r, k))
    (hg : good l = true) : 1 ≤ k ∧ good r = true := by
  simp only [delim1M] at h
  split at h
  · rename_i c rest
    split at h
    · split at h
      · exact Option.noConfusion h
      · split at h
        · rename_i e tail hdrop
          split at h
          · rename_i hed
            simp only [Option.some.injEq, Prod.mk.injEq] at h
            obtain ⟨rfl, rfl⟩ := h
            have hrun : good (rest.takeWhile (fun e => e ≠ d)) = true :=
              good_takeWhile_succ _ rest e tail (good_head_tail hg).2 hdrop
                (by rw [hed]; exact hd)
            exact ⟨by omega, good_append _ _ (good_append _ _ hO hrun) hC⟩
          · exact Option.noConfusion h
        · exact Option.noConfusion h
    · exact Option.noConfusion h
  · exact Option.noConfusion h

theorem delim2M_good (d : Char) (tagO tagC : List Char) (hO : good tagO = true)
    (hC : good tagC = true) (hd : keepChar d = false) (prev : Option Char)
    (l r : List Char) (k : Nat) (h : delim2M d tagO tagC prev l = some (r, k))
    (hg : good l = true) : 1 ≤ k ∧ good r = true := by
  simp only [delim2M] at h
  split at h
  · rename_i hpre
    split at h
    · exact Option.noConfusion h
    · split at h
      · rename_i hpre2
        simp only [Option.some.injEq, Prod.mk.injEq] at h
        obtain ⟨rfl, rfl⟩ := h
        obtain ⟨z, hz⟩ := List.isPrefixOf_iff_prefix.mp hpre2
        have hrun : good ((l.drop 2).takeWhile (fun e => e ≠ d)) = true := by
          apply good_takeWhile_succ _ (l.drop 2) d (d :: z) (good_drop 2 l hg) ?_ hd
          rw [← hz]
          rfl
        exact ⟨by omega, good_append _ _ (good_append _ _ hO hrun) hC⟩
      · exact Option.noConfusion h
  · exact Option.noConfusion h

theorem hrM_good (prev : Option Char) (l r : List Char) (k : Nat)
    (h : hrM prev l = some (r, k)) (hg : good l = true) :
    1 ≤ k ∧ good r = true := by
  simp only [hrM] at h
  split at h
  · split at h
    · rename_i hrun
      split at h
      · simp only [Option.some.injEq, Prod.mk.injEq] at h
        obtain ⟨rfl, rfl⟩ := h
        exact ⟨by omega, by decide⟩
      · split at h
        · simp only [Option.some.injEq, Prod.mk.injEq] at h
          obtain ⟨rfl, rfl⟩ := h
          exact ⟨by omega, by decide⟩
        · exact Option.noConfusion h
    · exact Option.noConfusion h
  · exact Option.noConfusion h


theorem codeBlockM_good (prev : Option Char) (l r : List Char) (k : Nat)
    (h : codeBlockM prev l = some (r, k)) (hg : good l = true) :
    1 ≤ k ∧ good r = true := by
  simp only [codeBlockM] at h
  split at h
  · split at h
    · rename_i afterNl hdrop
      split at h
      · rename_i i hfind
        simp only [Option.some.injEq, Prod.mk.injEq] at h
        obtain ⟨rfl, rfl⟩ := h
        refine ⟨by omega, ?_⟩
        have hrest : good (l.drop 3) = true := good_drop 3 l hg
        have hlang : good ((l.drop 3).takeWhile isWordChar) = true :=
          good_takeWhile_succ _ (l.drop 3) '\n' afterNl hrest hdrop (by decide)
        have hafter : good afterNl = true := by
          have hgd := good_drop ((l.drop 3).takeWhile isWordChar).length (l.drop 3) hrest
          rw [hdrop] at hgd
          exact (good_head_tail hgd).2
        have hpre3 := findSub_spec _ afterNl i hfind
        obtain ⟨z, hz⟩ := List.isPrefixOf_iff_prefix.mp hpre3
        have hsplit : afterNl.take i ++ btick :: (btick :: btick :: z) = afterNl := by
          conv_rhs => rw [← List.take_append_drop i afterNl]
          rw [← hz]
          rfl
        have hbody : good (afterNl.take i) = true :=
          good_prefix_succ _ btick _ (by rw [hsplit]; exact hafter) (by decide)
        exact good_append _ _ (good_append _ _ (good_append _ _ (good_append _ _
          (by decide) hlang) (by decide)) (good_trimJs _ hbody)) (by decide)
      · exact Option.noConfusion h
    · exact Option.noConfusion h
  · exact Option.noConfusion h

theorem linkM_good (prev : Option Char) (l r : List Char) (k : Nat)
    (h : linkM prev l = some (r, k)) (hg : good l = true) :
    1 ≤ k ∧ good r = true := by
  simp only [linkM] at h
  split at h
  · rename_i rest
    split at h
    · exact Option.noConfusion h
    · split at h
      · rename_i rest2 hdrop
        split at h
        · exact Option.noConfusion h
        · split at h
          · rename_i tail2 hdrop2
            simp only [Option.some.injEq, Prod.mk.injEq] at h
            obtain ⟨rfl, rfl⟩ := h
            refine ⟨by omega, ?_⟩
            have hrest : good rest = true := (good_head_tail hg).2
            have htxt : good (rest.takeWhile (fun c => c ≠ ']')) = true :=
              good_takeWhile_succ _ rest ']' _ hrest hdrop (by decide)
            have hrest2 : good rest2 = true := by
              have hgd := good_drop (rest.takeWhile (fun c => c ≠ ']')).length rest hrest
              rw [hdrop] at hgd
              exact (good_head_tail (good_head_tail hgd).2).2
            have hurl : good (rest2.takeWhile (fun c => c ≠ ')')) = true :=
              good_takeWhile_succ _ rest2 ')' _ hrest2 hdrop2 (by decide)
            exact good_append _ _ (good_append _ _ (good_append _ _ (good_append _ _
              (by decide) hurl) (by decide)) htxt) (by decide)
          · exact Option.noConfusion h
      · exact Option.noConfusion h
  · exact Option.noConfusion h

theorem imageM_good (prev : Option Char) (l r : List Char) (k : Nat)
    (h : imageM prev l = some (r, k)) (hg : good l = true) :
    1 ≤ k ∧ good r = true := by
  simp only [imageM] at h
  split at h
  · rename_i rest
    split at h
    · rename_i rest2 hdrop
      split at h
      · exact Option.noConfusion h
      · split at h
        · rename_i tail2 hdrop2
          simp only [Option.some.injEq, Prod.mk.injEq] at h
          obtain ⟨rfl, rfl⟩ := h
          refine ⟨by omega, ?_⟩
          have hrest : good rest = true := (good_head_tail (good_head_tail hg).2).2
          have halt : good (rest.takeWhile (fun c => c ≠ ']')) = true :=
            good_takeWhile_succ _ rest ']' _ hrest hdrop (by decide)
          have hrest2 : good rest2 = true := by
            have hgd := good_drop (rest.takeWhile (fun c => c ≠ ']')).length rest hrest
            rw [hdrop] at hgd
            exact (good_head_tail (good_head_tail hgd).2).2
          have hurl : good (rest2.takeWhile (fun c => c ≠ ')')) = true :=
            good_takeWhile_succ _ rest2 ')' _ hrest2 hdrop2 (by decide)
          exact good_append _ _ (good_append _ _ (good_append _ _ (good_append _ _
            (by decide) hurl) (by decide)) halt) (by decide)
        · exact Option.noConfusion h
    · exact Option.noConfusion h
  · exact Option.noConfusion h


theorem lastSub_spec (pat : List Char) (minIdx : Nat) (l : List Char) (q : Nat)
    (h : lastSub pat minIdx l = some q) :
    minIdx ≤ q ∧ pat.isPrefixOf (l.drop q) = true := by
  unfold lastSub at h
  have hmem := List.mem_of_mem_getLast? h
  have hf := (List.mem_filter.mp hmem).2
  rw [Bool.and_eq_true] at hf
  exact ⟨of_decide_eq_true hf.1, hf.2⟩

theorem good_take_of_last3 (l : List Char) (n : Nat) (hg : good l = true)
    (h3 : ∀ c ∈ (l.take n).reverse.take 3, c ≠ '<') : good (l.take n) = true := by
  rw [good_drops]
  intro j
  by_cases hlen : 4 ≤ (l.take n).length - j
  · rw [List.drop_take]
    rw [localOk_take_eq _ _ (by
      have := List.length_take n l
      omega)]
    exact (good_drops l).mp hg j
  · cases hs : (l.take n).drop j with
    | nil => rfl
    | cons c t =>
      by_cases hc : c = '<'
      · exfalso
        subst hc
        have hsuf : (l.take n).drop j <:+ l.take n := List.drop_suffix j (l.take n)
        have hpre : ((l.take n).drop j).reverse <+: (l.take n).reverse :=
          List.reverse_prefix.mpr hsuf
        have heqtk := List.prefix_iff_eq_take.mp hpre
        have hmem : '<' ∈ ((l.take n).drop j).reverse := by
          rw [hs]
          exact List.mem_reverse.mpr (List.mem_cons_self _ _)
        rw [heqtk] at hmem
        have hlen2 : ((l.take n).drop j).reverse.length ≤ 3 := by
          rw [List.length_reverse, List.length_drop]
          omega
        have hin : '<' ∈ ((l.take n).reverse.take 3) := by
          have h5 : (l.take n).reverse.take ((l.take n).drop j).reverse.length =
              ((l.take n).reverse.take 3).take ((l.take n).drop j).reverse.length := by
            rw [List.take_take, min_eq_left hlen2]
          rw [h5] at hmem
          exact List.take_subset _ _ hmem
        exact h3 '<' hin rfl
      · exact localOk_of_ne c t hc

theorem ulGroupLen_spec (l : List Char) (g : Nat) (h : ulGroupLen l = some g) :
    9 ≤ g ∧ g ≤ l.length ∧ (∀ c ∈ (l.take g).reverse.take 3, c ≠ '<') := by
  simp only [ulGroupLen] at h
  split at h
  · rename_i hpre
    split at h
    · rename_i q hlast
      obtain ⟨hq4, hqpre⟩ := lastSub_spec _ _ _ _ hlast
      obtain ⟨suf, hsuf⟩ := List.takeWhile_prefix (l := l) (fun c => !isLineTerm c)
      have hlen5 : q + 5 ≤ (l.takeWhile (fun c => !isLineTerm c)).length := by
        have hle := (List.isPrefixOf_iff_prefix.mp hqpre).length_le
        rw [List.length_drop] at hle
        have h5d : (['<', '/', 'l', 'i', '>'] : List Char).length = 5 := rfl
        omega
      have htake : ∀ m, m ≤ (l.takeWhile (fun c => !isLineTerm c)).length →
          l.take m = (l.takeWhile (fun c => !isLineTerm c)).take m := by
        intro m hm
        conv_lhs => rw [← hsuf]
        rw [List.take_append_of_le_length hm]
      obtain ⟨z, hz⟩ := List.isPrefixOf_iff_prefix.mp hqpre
      have hline5 : (l.takeWhile (fun c => !isLineTerm c)).take (q + 5) =
          (l.takeWhile (fun c => !isLineTerm c)).take q ++ (['<', '/', 'l', 'i', '>'] : List Char) := by
        rw [List.take_add]
        congr 1
        rw [← hz, show (5 : Nat) = (['<', '/', 'l', 'i', '>'] : List Char).length from rfl,
            List.take_left]
      have hlineLe : (l.takeWhile (fun c => !isLineTerm c)).length ≤ l.length := by
        have := congrArg List.length hsuf
        rw [List.length_append] at this
        omega
      split at h
      · rename_i w hdrop
        simp only [Option.some.injEq] at h
        subst h
        refine ⟨by omega, ?_, ?_⟩
        · have hdl := congrArg List.length hdrop
          rw [List.length_drop, List.length_cons] at hdl
          omega
        · have hTake : l.take (q + 6) =
              ((l.takeWhile (fun c => !isLineTerm c)).take q ++ (['<', '/', 'l', 'i', '>'] : List Char)) ++ ['\n'] := by
            have e1 := List.take_add l (q + 5) 1
            rw [e1, htake (q + 5) hlen5, hline5, hdrop]
            rfl
          have heq3 : (l.take (q + 6)).reverse.take 3 = ['\n', '>', 'i'] := by
            rw [hTake, List.reverse_append, List.reverse_append]
            rfl
          intro c hc
          rw [heq3] at hc
          simp only [List.mem_cons, List.not_mem_nil, or_false] at hc
          rcases hc with rfl | rfl | rfl <;> decide
      · simp only [Option.some.injEq] at h
        subst h
        refine ⟨by omega, by omega, ?_⟩
        have hTake : l.take (q + 5) =
            (l.takeWhile (fun c => !isLineTerm c)).take q ++ (['<', '/', 'l', 'i', '>'] : List Char) :=
          (htake (q + 5) hlen5).trans hline5
        have heq3 : (l.take (q + 5)).reverse.take 3 = ['>', 'i', 'l'] := by
          rw [hTake, List.reverse_append]
          rfl
        intro c hc
        rw [heq3] at hc
        simp only [List.mem_cons, List.not_mem_nil, or_false] at hc
        rcases hc with rfl | rfl | rfl <;> decide
    · exact Option.noConfusion h
  · exact Option.noConfusion h

theorem ulGroupsLen_spec : ∀ (fuel : Nat) (l : List Char),
    ulGroupsLen fuel l ≠ 0 →
    9 ≤ ulGroupsLen fuel l ∧ ulGroupsLen fuel l ≤ l.length ∧
    (∀ c ∈ (l.take (ulGroupsLen fuel l)).reverse.take 3, c ≠ '<') := by
  intro fuel
  induction fuel with
  | zero => intro l h; exact absurd rfl h
  | succ f ih =>
    intro l h
    cases hgl : ulGroupLen l with
    | none =>
      exfalso
      apply h
      show ulGroupsLen (f + 1) l = 0
      simp only [ulGroupsLen, hgl]
    | some g =>
      have heq : ulGroupsLen (f + 1) l = g + ulGroupsLen f (l.drop g) := by
        simp only [ulGroupsLen, hgl]
      obtain ⟨hg1, hgle, hg3⟩ := ulGroupLen_spec l g hgl
      by_cases hrest : ulGroupsLen f (l.drop g) = 0
      · rw [heq, hrest, Nat.add_zero]
        exact ⟨hg1, hgle, hg3⟩
      · obtain ⟨hr1, hrle, hr3⟩ := ih (l.drop g) hrest
        rw [heq]
        rw [List.length_drop] at hrle
        refine ⟨by omega, by omega, ?_⟩
        rw [List.take_add, List.reverse_append]
        have hlenr : 3 ≤ ((l.drop g).take (ulGroupsLen f (l.drop g))).reverse.length := by
          rw [List.length_reverse, List.length_take, List.length_drop]
          omega
        rw [List.take_append_of_le_length hlenr]
        exact hr3

theorem ulWrapM_good (prev : Option Char) (l r : List Char) (k : Nat)
    (h : ulWrapM prev l = some (r, k)) (hg : good l = true) :
    1 ≤ k ∧ good r = true := by
  simp only [ulWrapM] at h
  split at h
  · exact Option.noConfusion h
  · rename_i htot
    simp only [Option.some.injEq, Prod.mk.injEq] at h
    obtain ⟨rfl, rfl⟩ := h
    obtain ⟨h1, hle, h3⟩ := ulGroupsLen_spec l.length l htot
    refine ⟨by omega, ?_⟩
    exact good_append _ _ (good_append _ _ (by decide) (good_take_of_last3 l _ hg h3))
      (by decide)


theorem taskTail_good (ci : Bool) (T : List Char) (hgT : good T = true) :
    ∀ (m : Nat) (cap : List Char) (k : Nat),
    taskTail ci T m = some (cap, k) → good cap = true ∧ 1 ≤ k := by
  intro m
  induction m with
  | zero => intro cap k h; exact Option.noConfusion h
  | succ m ih =>
    intro cap k h
    simp only [taskTail] at h
    split at h
    · rename_i q hlast
      simp only [Option.some.injEq, Prod.mk.injEq] at h
      obtain ⟨rfl, rfl⟩ := h
      refine ⟨?_, by omega⟩
      have hgline : good ((T.drop (m + 1)).takeWhile (fun c => !isLineTerm c)) = true :=
        good_takeWhileP _ _ (good_drop _ _ hgT) lineTerm_arg_not_keep
      have hmem := List.mem_of_mem_getLast? hlast
      have hp := (List.mem_filter.mp hmem).2
      rw [Bool.and_eq_true] at hp
      obtain ⟨hq1, hcond⟩ := hp
      have hhead : ∃ w, (((T.drop (m + 1)).takeWhile (fun c => !isLineTerm c)).drop q)
          = '<' :: w := by
        cases ci with
        | false =>
          rw [ite_eq_else _ _ rfl] at hcond
          obtain ⟨z, hz⟩ := List.isPrefixOf_iff_prefix.mp hcond
          exact ⟨'/' :: 'l' :: 'i' :: '>' :: z, hz.symm⟩
        | true =>
          rw [ite_eq_then _ _ rfl] at hcond
          rw [Bool.and_eq_true] at hcond
          obtain ⟨hall, hlen⟩ := hcond
          have hlen' := of_decide_eq_true hlen
          cases hd : ((T.drop (m + 1)).takeWhile (fun c => !isLineTerm c)).drop q with
          | nil =>
            exfalso
            have := congrArg List.length hd
            rw [List.length_drop] at this
            simp only [List.length_nil] at this
            omega
          | cons x w =>
            rw [hd] at hall
            rw [show (['<', '/', 'l', 'i', '>'] : List Char) =
                '<' :: ['/', 'l', 'i', '>'] from rfl, List.zip_cons_cons,
                List.all_cons, Bool.and_eq_true] at hall
            have hx := of_decide_eq_true hall.1
            rw [show lowerC '<' = '<' from by decide] at hx
            have hxlt : x = '<' := lowerC_eq_lt x hx.symm
            exact ⟨w, by rw [← hxlt]⟩
      obtain ⟨w, hw⟩ := hhead
      apply good_prefix_succ _ '<' w ?_ (by decide)
      have hs : (((T.drop (m + 1)).takeWhile (fun c => !isLineTerm c)).take q)
          ++ '<' :: w = ((T.drop (m + 1)).takeWhile (fun c => !isLineTerm c)) := by
        conv_rhs => rw [← List.take_append_drop q
          ((T.drop (m + 1)).takeWhile (fun c => !isLineTerm c))]
        rw [hw]
      rw [hs]
      exact hgline
    · exact ih cap k h

theorem taskUncheckedM_good (prev : Option Char) (l r : List Char) (k : Nat)
    (h : taskUncheckedM prev l = some (r, k)) (hg : good l = true) :
    1 ≤ k ∧ good r = true := by
  simp only [taskUncheckedM] at h
  split at h
  · split at h
    · rename_i c T hdrop
      split at h
      · split at h
        · rename_i cap k' htt
          simp only [Option.some.injEq, Prod.mk.injEq] at h
          obtain ⟨rfl, rfl⟩ := h
          have hgT : good T = true := by
            have hgd := good_drop 5 l hg
            rw [hdrop] at hgd
            exact (good_head_tail (good_head_tail hgd).2).2
          obtain ⟨hcap, hk'⟩ := taskTail_good false T hgT _ _ _ htt
          exact ⟨by omega, good_append _ _ (good_append _ _ (by decide) hcap) (by decide)⟩
        · exact Option.noConfusion h
      · exact Option.noConfusion h
    · exact Option.noConfusion h
  · exact Option.noConfusion h

theorem taskCheckedM_good (prev : Option Char) (l r : List Char) (k : Nat)
    (h : taskCheckedM prev l = some (r, k)) (hg : good l = true) :
    1 ≤ k ∧ good r = true := by
  simp only [taskCheckedM] at h
  split at h
  · split at h
    · rename_i x b T hdrop
      split at h
      · split at h
        · rename_i cap k' htt
          simp only [Option.some.injEq, Prod.mk.injEq] at h
          obtain ⟨rfl, rfl⟩ := h
          have hgT : good T = true := by
            have hgd := good_drop 5 l hg
            rw [hdrop] at hgd
            exact (good_head_tail (good_head_tail hgd).2).2
          obtain ⟨hcap, hk'⟩ := taskTail_good true T hgT _ _ _ htt
          exact ⟨by omega, good_append _ _ (good_append _ _ (by decide) hcap) (by decide)⟩
        · exact Option.noConfusion h
      · exact Option.noConfusion h
    · exact Option.noConfusion h
  · exact Option.noConfusion h


/-! ### The escape output is good, and the pre-folding pipeline preserves it -/

theorem mdStages_decomp (l : List Char) :
    mdStages l = cleanupP (wrapP (foldP (preFold l))) := rfl

theorem scanLit_no_intro (pat repl : List Char) (c0 : Char) (hrepl : c0 ∉ repl) :
    ∀ (fuel : Nat) (prev : Option Char) (l : List Char), c0 ∉ l →
    c0 ∉ scanWith (litM pat repl) fuel prev l := by
  intro fuel
  induction fuel with
  | zero => intro prev l h; exact h
  | succ f ih =>
    intro prev l h
    cases l with
    | nil => exact h
    | cons c rest =>
      have hc : c0 ≠ c := fun he => h (he ▸ List.mem_cons_self c rest)
      have hrest : c0 ∉ rest := fun hr => h (List.mem_cons_of_mem c hr)
      cases hm : litM pat repl prev (c :: rest) with
      | none =>
        simp only [scanWith, hm]
        intro hx
        rcases List.mem_cons.mp hx with he | hin
        · exact hc he
        · exact ih (some c) rest hrest hin
      | some rk =>
        obtain ⟨r, k⟩ := rk
        have hlit : r = repl := by
          unfold litM at hm
          split at hm
          · simp only [Option.some.injEq, Prod.mk.injEq] at hm
            exact hm.1.symm
          · exact Option.noConfusion hm
        subst hlit
        by_cases hk : k = 0
        · simp only [scanWith, hm, if_pos hk]
          intro hx
          rcases List.mem_cons.mp hx with he | hin
          · exact hc he
          · exact ih (some c) rest hrest hin
        · simp only [scanWith, hm, if_neg hk]
          intro hx
          rcases List.mem_append.mp hx with hin | hin
          · exact hrepl hin
          · exact ih _ _ (fun hd => h (List.drop_subset k (c :: rest) hd)) hin

theorem scanLt_removes : ∀ (fuel : Nat) (prev : Option Char) (l : List Char),
    l.length ≤ fuel → '<' ∉ scanWith (litM ['<'] "&lt;".data) fuel prev l := by
  intro fuel
  induction fuel with
  | zero =>
    intro prev l h
    have hnil : l = [] := List.eq_nil_of_length_eq_zero (by omega)
    subst hnil
    exact List.not_mem_nil _
  | succ f ih =>
    intro prev l hlen
    cases l with
    | nil => exact List.not_mem_nil _
    | cons c rest =>
      rw [List.length_cons] at hlen
      by_cases hc : c = '<'
      · subst hc
        have hm : litM ['<'] "&lt;".data prev ('<' :: rest) = some ("&lt;".data, 1) := by
          unfold litM
          rw [ite_eq_then _ _ (by simp [List.isPrefixOf])]
          rfl
        simp only [scanWith, hm, if_neg (by omega : ¬ (1 : Nat) = 0)]
        intro hx
        rcases List.mem_append.mp hx with hin | hin
        · revert hin
          decide
        · exact ih _ rest (by omega) hin
      · have hm : litM ['<'] "&lt;".data prev (c :: rest) = none := by
          unfold litM
          rw [ite_eq_else _ _ (notPre_of_head_ne '<' [] c rest hc)]
        simp only [scanWith, hm]
        intro hx
        rcases List.mem_cons.mp hx with he | hin
        · exact hc he.symm
        · exact ih (some c) rest (by omega) hin

theorem good_of_no_lt (l : List Char) (h : '<' ∉ l) : good l = true := by
  rw [good_drops]
  intro j
  cases hd : l.drop j with
  | nil => rfl
  | cons c t =>
    apply localOk_of_ne
    intro he
    subst he
    apply h
    have hin : '<' ∈ l.drop j := by
      rw [hd]
      exact List.mem_cons_self _ _
    exact List.drop_subset j l hin

theorem good_escape (l : List Char) : good (escapeHtml l) = true := by
  unfold escapeHtml runScan
  apply good_of_no_lt
  apply scanLit_no_intro _ _ _ (by decide)
  exact scanLt_removes _ _ _ (le_refl _)

theorem runScan_good (m : Matcher)
    (H2 : ∀ (prev : Option Char) (c : Char) (rest : List Char), keepChar c = true →
      m prev (c :: rest) = none)
    (H1 : ∀ (prev : Option Char) (l r : List Char) (k : Nat),
      m prev l = some (r, k) → good l = true → 1 ≤ k ∧ good r = true)
    (l : List Char) (hg : good l = true) : good (runScan m l) = true :=
  scan_good m H2 H1 l.length none l hg

theorem preFold_good (l : List Char) (hg : good l = true) :
    good (preFold l) = true := by
  unfold preFold
  apply runScan_good _ taskCheckedM_keep taskCheckedM_good
  apply runScan_good _ taskUncheckedM_keep taskUncheckedM_good
  apply runScan_good _ olItemM_keep olItemM_good
  apply runScan_good _ ulWrapM_keep ulWrapM_good
  apply runScan_good _ ulItemM_keep ulItemM_good
  apply runScan_good _ hrM_keep hrM_good
  apply runScan_good _ blockquoteM_keep blockquoteM_good
  apply runScan_good _ imageM_keep imageM_good
  apply runScan_good _ linkM_keep linkM_good
  apply runScan_good _ (delim2M_keep _ _ _ (by decide))
    (delim2M_good _ _ _ (by decide) (by decide) (by decide))
  apply runScan_good _ (delim1M_keep _ _ _ (by decide))
    (delim1M_good _ _ _ (by decide) (by decide) (by decide))
  apply runScan_good _ (delim1M_keep _ _ _ (by decide))
    (delim1M_good _ _ _ (by decide) (by decide) (by decide))
  apply runScan_good _ (delim2M_keep _ _ _ (by decide))
    (delim2M_good _ _ _ (by decide) (by decide) (by decide))
  apply runScan_good _ (delim2M_keep _ _ _ (by decide))
    (delim2M_good _ _ _ (by decide) (by decide) (by decide))
  apply runScan_good _ (headerM_keep _ (by omega) _ _)
    (headerM_good _ _ _ (by decide) (by decide))
  apply runScan_good _ (headerM_keep _ (by omega) _ _)
    (headerM_good _ _ _ (by decide) (by decide))
  apply runScan_good _ (headerM_keep _ (by omega) _ _)
    (headerM_good _ _ _ (by decide) (by decide))
  apply runScan_good _ (headerM_keep _ (by omega) _ _)
    (headerM_good _ _ _ (by decide) (by decide))
  apply runScan_good _ (headerM_keep _ (by omega) _ _)
    (headerM_good _ _ _ (by decide) (by decide))
  apply runScan_good _ (headerM_keep _ (by omega) _ _)
    (headerM_good _ _ _ (by decide) (by decide))
  apply runScan_good _ (delim1M_keep _ _ _ (by decide))
    (delim1M_good _ _ _ (by decide) (by decide) (by decide))
  apply runScan_good _ codeBlockM_keep codeBlockM_good
  exact hg


/-! ### Structure of the blank-line folding pass -/

theorem fold1_ne_nil : ∀ (fuel : Nat) (l : List Char), fold1Parts fuel l ≠ [] := by
  intro fuel
  induction fuel with
  | zero => intro l; exact List.cons_ne_nil _ _
  | succ f ih =>
    intro l
    cases l with
    | nil => exact List.cons_ne_nil _ _
    | cons c rest =>
      intro habs
      simp only [fold1Parts] at habs
      split at habs
      · exact List.cons_ne_nil _ _ habs
      · cases hP : fold1Parts f rest with
        | nil => exact ih rest hP
        | cons q qs =>
          rw [hP] at habs
          simp only [consHead] at habs
          exact List.cons_ne_nil _ _ habs

theorem fold1_head : ∀ (fuel : Nat) (l : List Char), ∃ n ps,
    fold1Parts fuel l = l.take n :: ps ∧
    (l.drop n = [] ∨ ∃ w, l.drop n = '\n' :: w) := by
  intro fuel
  induction fuel with
  | zero =>
    intro l
    exact ⟨l.length, [], by simp only [fold1Parts, List.take_length], Or.inl (List.drop_length l)⟩
  | succ f ih =>
    intro l
    cases l with
    | nil => exact ⟨0, [], rfl, Or.inl rfl⟩
    | cons c rest =>
      cases hp : (('\n' :: '\n' :: []).isPrefixOf (c :: rest)) with
      | true =>
        refine ⟨0, fold1Parts f (rest.drop 1), ?_, ?_⟩
        · show fold1Parts (f + 1) (c :: rest) = (c :: rest).take 0 :: _
          simp only [fold1Parts, ite_eq_then _ _ hp]
          rw [List.take_zero]
        · right
          obtain ⟨z, hz⟩ := List.isPrefixOf_iff_prefix.mp hp
          have h1 : '\n' = c := by
            have := congrArg (fun t => t.head?) hz
            simpa using this
          exact ⟨rest, by rw [List.drop_zero, ← h1]⟩
      | false =>
        obtain ⟨n, ps, hps, hcond⟩ := ih rest
        refine ⟨n + 1, ps, ?_, ?_⟩
        · show fold1Parts (f + 1) (c :: rest) = (c :: rest).take (n + 1) :: ps
          simp only [fold1Parts, ite_eq_else _ _ hp]
          rw [hps]
          simp only [consHead, List.take_succ_cons]
        · rw [List.drop_succ_cons]
          exact hcond

theorem fold1_good : ∀ (fuel : Nat) (l : List Char), good l = true →
    ∀ p ∈ fold1Parts fuel l, good p = true := by
  intro fuel
  induction fuel with
  | zero =>
    intro l hg p hp
    rw [List.mem_singleton.mp hp]
    exact hg
  | succ f ih =>
    intro l hg p hp
    cases l with
    | nil =>
      rw [List.mem_singleton.mp hp]
      rfl
    | cons c rest =>
      cases hpre : (('\n' :: '\n' :: []).isPrefixOf (c :: rest)) with
      | true =>
        rw [show fold1Parts (f + 1) (c :: rest) = [] :: fold1Parts f (rest.drop 1) from by
          simp only [fold1Parts, ite_eq_then _ _ hpre]] at hp
        rcases List.mem_cons.mp hp with rfl | hin
        · rfl
        · exact ih (rest.drop 1) (good_drop 1 rest (good_head_tail hg).2) p hin
      | false =>
        obtain ⟨n, ps, hps, hcond⟩ := fold1_head f rest
        rw [show fold1Parts (f + 1) (c :: rest) = (c :: rest.take n) :: ps from by
          simp only [fold1Parts, ite_eq_else _ _ hpre]
          rw [hps]
          simp only [consHead]] at hp
        rcases List.mem_cons.mp hp with rfl | hin
        · rcases hcond with hnil | ⟨w, hw⟩
          · have : rest.take n = rest := List.take_of_length_le (by
              have := congrArg List.length hnil
              rw [List.length_drop] at this
              simp only [List.length_nil] at this
              omega)
            rw [this]
            exact hg
          · apply good_prefix_succ (c :: rest.take n) '\n' w ?_ (by decide)
            have hsplit : (c :: rest.take n) ++ '\n' :: w = c :: rest := by
              rw [List.cons_append]
              congr 1
              rw [← hw]
              exact List.take_append_drop n rest
            rw [hsplit]
            exact hg
        · exact ih rest (good_head_tail hg).2 p
            (by rw [hps]; exact List.mem_cons_of_mem _ hin)

theorem scan2_eq : ∀ (fuel : Nat) (prev : Option Char) (l : List Char),
    scanWith (litM "\n\n".data "</p><p>".data) fuel prev l =
      joinSep (fold1Parts fuel l) := by
  intro fuel
  induction fuel with
  | zero => intro prev l; rfl
  | succ f ih =>
    intro prev l
    cases l with
    | nil => rfl
    | cons c rest =>
      cases hp : (("\n\n".data).isPrefixOf (c :: rest)) with
      | true =>
        have hm : litM "\n\n".data "</p><p>".data prev (c :: rest) =
            some ("</p><p>".data, 2) := by
          unfold litM
          rw [ite_eq_then _ _ hp]
          rfl
        simp only [scanWith, hm, if_neg (by omega : ¬ (2 : Nat) = 0)]
        rw [ih]
        have hparts : fold1Parts (f + 1) (c :: rest) = [] :: fold1Parts f (rest.drop 1) := by
          simp only [fold1Parts, ite_eq_then _ _ (show (('\n' :: '\n' :: []).isPrefixOf
            (c :: rest)) = true from hp)]
        rw [hparts]
        cases hP : fold1Parts f (rest.drop 1) with
        | nil => exact absurd hP (fold1_ne_nil f _)
        | cons q qs =>
          rw [show (c :: rest).drop 2 = rest.drop 1 from rfl, hP]
          rfl
      | false =>
        have hm : litM "\n\n".data "</p><p>".data prev (c :: rest) = none := by
          unfold litM
          rw [ite_eq_else _ _ hp]
        simp only [scanWith, hm]
        rw [ih]
        have hparts : fold1Parts (f + 1) (c :: rest) = consHead c (fold1Parts f rest) := by
          simp only [fold1Parts, ite_eq_else _ _ (show (('\n' :: '\n' :: []).isPrefixOf
            (c :: rest)) = false from hp)]
        rw [hparts]
        cases hP : fold1Parts f rest with
        | nil => exact absurd hP (fold1_ne_nil f rest)
        | cons q qs =>
          simp only [consHead]
          cases qs with
          | nil => rfl
          | cons q2 qs2 => rfl


/-! ### The line-break pass distributes over the folded parts -/

theorem scanLit1_append (a0 : Char) (repl : List Char) :
    ∀ (x : List Char) (fuel f1 f2 : Nat) (prev p1 p2 : Option Char) (y : List Char),
    x.length + y.length ≤ fuel → x.length ≤ f1 → y.length ≤ f2 →
    scanWith (litM [a0] repl) fuel prev (x ++ y) =
      scanWith (litM [a0] repl) f1 p1 x ++ scanWith (litM [a0] repl) f2 p2 y := by
  intro x
  induction x with
  | nil =>
    intro fuel f1 f2 prev p1 p2 y h hf1 hf2
    rw [List.nil_append, scanWith_nil, List.nil_append]
    rw [scanWith_fuel_irrel _ fuel y f2 prev (by simpa using h) hf2,
        scanLit_prev_irrel _ _ f2 y prev p2]
  | cons c x' ih =>
    intro fuel f1 f2 prev p1 p2 y h hf1 hf2
    rw [List.length_cons] at h hf1
    cases fuel with
    | zero => exact absurd h (by omega)
    | succ f =>
      cases f1 with
      | zero => exact absurd hf1 (by omega)
      | succ g1 =>
        by_cases hc : c = a0
        · subst hc
          have hfire : ∀ (pv : Option Char) (t : List Char),
              litM [c] repl pv (c :: t) = some (repl, 1) := by
            intro pv t
            unfold litM
            rw [ite_eq_then _ _ (by simp [List.isPrefixOf])]
            rfl
          rw [List.cons_append]
          simp only [scanWith, hfire prev (x' ++ y), hfire p1 x',
            if_neg (by omega : ¬ (1 : Nat) = 0)]
          rw [List.append_assoc]
          congr 1
          exact ih f g1 f2 _ _ p2 y (by omega) (by omega) hf2
        · have hnone : ∀ (pv : Option Char) (t : List Char),
              litM [a0] repl pv (c :: t) = none := by
            intro pv t
            unfold litM
            rw [ite_eq_else _ _ (notPre_of_head_ne a0 [] c t hc)]
          rw [List.cons_append]
          simp only [scanWith, hnone prev (x' ++ y), hnone p1 x']
          rw [List.cons_append]
          exact congrArg (c :: ·) (ih f g1 f2 (some c) (some c) p2 y (by omega)
            (by omega) hf2)

theorem runScan_append1 (a0 : Char) (repl : List Char) (x y : List Char) :
    runScan (litM [a0] repl) (x ++ y) =
      runScan (litM [a0] repl) x ++ runScan (litM [a0] repl) y := by
  unfold runScan
  exact scanLit1_append a0 repl x (x ++ y).length x.length y.length none none none y
    (by rw [List.length_append]) (le_refl _) (le_refl _)

theorem runScan_lit_id (pat repl : List Char) (l : List Char)
    (h : containsSub pat l = false) : runScan (litM pat repl) l = l :=
  scanLit_id pat repl l.length none l h

theorem br_joinSep : ∀ (ps : List (List Char)),
    runScan (litM "\n".data "<br />".data) (joinSep ps) =
      joinSep (ps.map (fun p => runScan (litM "\n".data "<br />".data) p))
  | [] => rfl
  | [p] => rfl
  | p :: q :: qs => by
    have e1 : ("\n".data : List Char) = ['\n'] := rfl
    show runScan _ ((p ++ sepT) ++ joinSep (q :: qs)) = _
    rw [e1, runScan_append1, runScan_append1]
    rw [runScan_lit_id _ _ sepT (by decide)]
    have hrec := br_joinSep (q :: qs)
    rw [e1] at hrec
    rw [hrec]
    rfl

theorem br_good (p : List Char) (hg : good p = true) :
    good (runScan (litM "\n".data "<br />".data) p) = true := by
  apply runScan_good _ ?_ ?_ _ hg
  · intro prev c rest hc
    have hne : c ≠ '\n' := by intro he; subst he; exact absurd hc (by decide)
    unfold litM
    rw [ite_eq_else _ _ (show ("\n".data).isPrefixOf (c :: rest) = false from
      notPre_of_head_ne '\n' [] c rest hne)]
  · intro prev l r k hm hgl
    unfold litM at hm
    split at hm
    · simp only [Option.some.injEq, Prod.mk.injEq] at hm
      obtain ⟨rfl, rfl⟩ := hm
      exact ⟨by decide, by decide⟩
    · exact Option.noConfusion hm

theorem foldP_eq (l : List Char) :
    foldP l = joinSep ((fold1Parts l.length l).map
      (fun p => runScan (litM "\n".data "<br />".data) p)) := by
  unfold foldP
  rw [show runScan (litM "\n\n".data "</p><p>".data) l = joinSep (fold1Parts l.length l)
    from scan2_eq l.length none l]
  exact br_joinSep _

theorem foldP_parts_good (l : List Char) (hg : good l = true) :
    ∀ p ∈ (fold1Parts l.length l).map (fun p => runScan (litM "\n".data "<br />".data) p),
    good p = true := by
  intro p hp
  obtain ⟨p0, hp0, rfl⟩ := List.mem_map.mp hp
  exact br_good p0 (fold1_good l.length l hg p0 hp0)


/-! ### Occurrence analysis of `<p></p>` and `<o` around the folded blocks -/

theorem pat7_pre_block (W : List Char) (h : pat7.isPrefixOf (pTagO ++ W) = true) :
    pTagC.isPrefixOf W = true := by
  rw [List.isPrefixOf_iff_prefix] at h ⊢
  rw [show pat7 = pTagO ++ pTagC from rfl] at h
  exact (List.prefix_append_right_inj pTagO).mp h

theorem pTagC_not_pre (q S : List Char) (hg : good q = true) (hne : q ≠ []) :
    pTagC.isPrefixOf (q ++ S) = false := by
  by_contra hb
  rw [Bool.not_eq_false] at hb
  rcases q with _ | ⟨a, _ | ⟨b, _ | ⟨c, _ | ⟨d, tl⟩⟩⟩⟩
  · exact hne rfl
  · rw [show pTagC = '<' :: ['/', 'p', '>'] from rfl] at hb
    simp only [List.cons_append, List.nil_append, List.isPrefixOf, Bool.and_eq_true,
      beq_iff_eq] at hb
    obtain ⟨rfl, -⟩ := hb
    exact absurd hg (by decide)
  · rw [show pTagC = '<' :: '/' :: ['p', '>'] from rfl] at hb
    simp only [List.cons_append, List.nil_append, List.isPrefixOf, Bool.and_eq_true,
      beq_iff_eq] at hb
    obtain ⟨rfl, rfl, -⟩ := hb
    exact absurd hg (by decide)
  · rw [show pTagC = '<' :: '/' :: 'p' :: ['>'] from rfl] at hb
    simp only [List.cons_append, List.nil_append, List.isPrefixOf, Bool.and_eq_true,
      beq_iff_eq] at hb
    obtain ⟨rfl, rfl, rfl, -⟩ := hb
    exact absurd hg (by decide)
  · rw [show pTagC = '<' :: '/' :: 'p' :: '>' :: [] from rfl] at hb
    simp only [List.cons_append, List.isPrefixOf, Bool.and_eq_true, beq_iff_eq] at hb
    obtain ⟨rfl, rfl, rfl, rfl, -⟩ := hb
    have hcs : containsSub pTagC ('<' :: '/' :: 'p' :: '>' :: tl) = true :=
      (containsSub_iff pTagC (by decide) _).mpr ⟨0, by simp [pTagC, List.isPrefixOf]⟩
    rw [good_not_pTagC _ hg] at hcs
    exact absurd hcs (by simp)

theorem nopq_pat7 (q R : List Char) (hg : good q = true)
    (hR : pat7.isPrefixOf R = false) (t : Nat) :
    pat7.isPrefixOf (q.drop t ++ R) = false := by
  by_contra hb
  rw [Bool.not_eq_false] at hb
  have hgt : localOk (q.drop t) = true := (good_drops q).mp hg t
  rcases hqd : q.drop t with _ | ⟨a, _ | ⟨b, _ | ⟨c, tl⟩⟩⟩
  · rw [hqd, List.nil_append, hR] at hb
    simp at hb
  · rw [hqd] at hb
    rw [show pat7 = '<' :: ('p' :: '>' :: '<' :: '/' :: 'p' :: '>' :: []) from rfl] at hb
    simp only [List.cons_append, List.nil_append, List.isPrefixOf, Bool.and_eq_true,
      beq_iff_eq] at hb
    obtain ⟨ha, -⟩ := hb
    rw [hqd, ← ha] at hgt
    exact absurd hgt (by decide)
  · rw [hqd] at hb
    rw [show pat7 = '<' :: 'p' :: ('>' :: '<' :: '/' :: 'p' :: '>' :: []) from rfl] at hb
    simp only [List.cons_append, List.nil_append, List.isPrefixOf, Bool.and_eq_true,
      beq_iff_eq] at hb
    obtain ⟨ha, hb2, -⟩ := hb
    rw [hqd, ← ha, ← hb2] at hgt
    exact absurd hgt (by decide)
  · rw [hqd] at hb
    rw [show pat7 = '<' :: 'p' :: '>' :: ('<' :: '/' :: 'p' :: '>' :: []) from rfl] at hb
    simp only [List.cons_append, List.isPrefixOf, Bool.and_eq_true, beq_iff_eq] at hb
    obtain ⟨ha, hb2, hc, -⟩ := hb
    have hcs : containsSub pTagO q = true := (containsSub_iff pTagO (by decide) q).mpr
      ⟨t, by rw [hqd, ← ha, ← hb2, ← hc]; simp [pTagO, List.isPrefixOf]⟩
    rw [good_not_pTagO q hg] at hcs
    exact absurd hcs (by simp)

theorem nopq_lto (q R : List Char) (hg : good q = true)
    (hR : (('<' : Char) :: 'o' :: []).isPrefixOf R = false) (t : Nat) :
    (('<' : Char) :: 'o' :: []).isPrefixOf (q.drop t ++ R) = false := by
  by_contra hb
  rw [Bool.not_eq_false] at hb
  have hgt : localOk (q.drop t) = true := (good_drops q).mp hg t
  rcases hqd : q.drop t with _ | ⟨a, _ | ⟨b, tl⟩⟩
  · rw [hqd, List.nil_append, hR] at hb
    simp at hb
  · rw [hqd] at hb
    simp only [List.cons_append, List.nil_append, List.isPrefixOf, Bool.and_eq_true,
      beq_iff_eq] at hb
    obtain ⟨ha, -⟩ := hb
    rw [hqd, ← ha] at hgt
    exact absurd hgt (by decide)
  · rw [hqd] at hb
    simp only [List.cons_append, List.isPrefixOf, Bool.and_eq_true, beq_iff_eq] at hb
    obtain ⟨ha, hb2, -⟩ := hb
    have hcs : containsSub ('<' :: 'o' :: []) q = true :=
      (containsSub_iff _ (by decide) q).mpr
        ⟨t, by rw [hqd, ← ha, ← hb2]; simp [List.isPrefixOf]⟩
    rw [good_not_lto q hg] at hcs
    exact absurd hcs (by simp)


theorem drop3_cons (L : List Char) (a b c : Char) (t : Nat) :
    (a :: b :: c :: L).drop (t + 3) = L.drop t := by
  rw [show t + 3 = (t + 2) + 1 from rfl, List.drop_succ_cons,
      show t + 2 = (t + 1) + 1 from rfl, List.drop_succ_cons, List.drop_succ_cons]

theorem pWrap_len (q : List Char) : (pWrap q).length = q.length + 7 := by
  simp only [pWrap, List.length_append, pTagO, pTagC, List.length_cons, List.length_nil]
  omega

theorem pWrap_cons (q Z : List Char) :
    pWrap q ++ Z = '<' :: 'p' :: '>' :: (q ++ (pTagC ++ Z)) := by
  simp [pWrap, pTagO, List.append_assoc]

theorem block_head_clear (q : List Char) (hg : good q = true) (hne : q ≠ [])
    (Z : List Char) (j : Nat) (hj : j < (pWrap q).length) :
    pat7.isPrefixOf ((pWrap q ++ Z).drop j) = false := by
  rw [pWrap_cons]
  rcases j with _ | _ | _ | t
  · rw [List.drop_zero]
    by_contra hb
    rw [Bool.not_eq_false] at hb
    have hpc := pat7_pre_block (q ++ (pTagC ++ Z)) hb
    rw [pTagC_not_pre q (pTagC ++ Z) hg hne] at hpc
    exact absurd hpc (by simp)
  · show pat7.isPrefixOf ('p' :: '>' :: (q ++ (pTagC ++ Z))) = false
    simp [pat7, pTagO, pTagC, List.isPrefixOf]
  · show pat7.isPrefixOf ('>' :: (q ++ (pTagC ++ Z))) = false
    simp [pat7, pTagO, pTagC, List.isPrefixOf]
  · rw [drop3_cons]
    by_cases hq : t ≤ q.length
    · rw [List.drop_append_of_le_length hq]
      exact nopq_pat7 q (pTagC ++ Z) hg (by simp [pat7, pTagO, pTagC, List.isPrefixOf]) t
    · obtain ⟨t', rfl⟩ : ∃ t', t = q.length + t' := ⟨t - q.length, by omega⟩
      rw [List.drop_append]
      have ht4 : t' < 4 := by rw [pWrap_len] at hj; omega
      have ht1 : 1 ≤ t' := by omega
      interval_cases t'
      · show pat7.isPrefixOf ('/' :: 'p' :: '>' :: Z) = false
        simp [pat7, pTagO, pTagC, List.isPrefixOf]
      · show pat7.isPrefixOf ('p' :: '>' :: Z) = false
        simp [pat7, pTagO, pTagC, List.isPrefixOf]
      · show pat7.isPrefixOf ('>' :: Z) = false
        simp [pat7, pTagO, pTagC, List.isPrefixOf]

theorem block_head_clear_lto (q : List Char) (hg : good q = true)
    (Z : List Char) (j : Nat) (hj : j < (pWrap q).length) :
    (('<' : Char) :: 'o' :: []).isPrefixOf ((pWrap q ++ Z).drop j) = false := by
  rw [pWrap_cons]
  rcases j with _ | _ | _ | t
  · show (('<' : Char) :: 'o' :: []).isPrefixOf ('<' :: 'p' :: '>' :: (q ++ (pTagC ++ Z)))
      = false
    simp [List.isPrefixOf]
  · show (('<' : Char) :: 'o' :: []).isPrefixOf ('p' :: '>' :: (q ++ (pTagC ++ Z))) = false
    simp [List.isPrefixOf]
  · show (('<' : Char) :: 'o' :: []).isPrefixOf ('>' :: (q ++ (pTagC ++ Z))) = false
    simp [List.isPrefixOf]
  · rw [drop3_cons]
    by_cases hq : t ≤ q.length
    · rw [List.drop_append_of_le_length hq]
      exact nopq_lto q (pTagC ++ Z) hg (by simp [pTagC, List.isPrefixOf]) t
    · obtain ⟨t', rfl⟩ : ∃ t', t = q.length + t' := ⟨t - q.length, by omega⟩
      rw [List.drop_append]
      have ht4 : t' < 4 := by rw [pWrap_len] at hj; omega
      have ht1 : 1 ≤ t' := by omega
      interval_cases t'
      · show (('<' : Char) :: 'o' :: []).isPrefixOf ('/' :: 'p' :: '>' :: Z) = false
        simp [List.isPrefixOf]
      · show (('<' : Char) :: 'o' :: []).isPrefixOf ('p' :: '>' :: Z) = false
        simp [List.isPrefixOf]
      · show (('<' : Char) :: 'o' :: []).isPrefixOf ('>' :: Z) = false
        simp [List.isPrefixOf]

theorem noPat7_pBlocksT : ∀ (qs : List (List Char)) (T : List Char),
    (∀ q ∈ qs, good q = true ∧ q ≠ []) →
    (∀ j, pat7.isPrefixOf (T.drop j) = false) →
    ∀ j, pat7.isPrefixOf ((pBlocks qs ++ T).drop j) = false := by
  intro qs
  induction qs with
  | nil => intro T hq hT j; exact hT j
  | cons q qs' ih =>
    intro T hq hT j
    obtain ⟨hgq, hneq⟩ := hq q (List.mem_cons_self _ _)
    have hrest := ih T (fun p hp => hq p (List.mem_cons_of_mem _ hp)) hT
    have hE : pBlocks (q :: qs') ++ T = pWrap q ++ (pBlocks qs' ++ T) := by
      simp [pBlocks, List.append_assoc]
    rw [hE]
    by_cases hj : j < (pWrap q).length
    · exact block_head_clear q hgq hneq _ j hj
    · obtain ⟨j', rfl⟩ : ∃ j', j = (pWrap q).length + j' := ⟨j - (pWrap q).length, by omega⟩
      rw [List.drop_append]
      exact hrest j'

theorem noLto_pBlocksT : ∀ (qs : List (List Char)) (T : List Char),
    (∀ q ∈ qs, good q = true) →
    (∀ j, (('<' : Char) :: 'o' :: []).isPrefixOf (T.drop j) = false) →
    ∀ j, (('<' : Char) :: 'o' :: []).isPrefixOf ((pBlocks qs ++ T).drop j) = false := by
  intro qs
  induction qs with
  | nil => intro T hq hT j; exact hT j
  | cons q qs' ih =>
    intro T hq hT j
    have hgq := hq q (List.mem_cons_self _ _)
    have hrest := ih T (fun p hp => hq p (List.mem_cons_of_mem _ hp)) hT
    have hE : pBlocks (q :: qs') ++ T = pWrap q ++ (pBlocks qs' ++ T) := by
      simp [pBlocks, List.append_assoc]
    rw [hE]
    by_cases hj : j < (pWrap q).length
    · exact block_head_clear_lto q hgq _ j hj
    · obtain ⟨j', rfl⟩ : ∃ j', j = (pWrap q).length + j' := ⟨j - (pWrap q).length, by omega⟩
      rw [List.drop_append]
      exact hrest j'


/-! ### The empty-paragraph removal pass on the block string -/

theorem removal_pBlocksT : ∀ (qs : List (List Char)) (T : List Char),
    (∀ q ∈ qs, good q = true) →
    (∀ j, pat7.isPrefixOf (T.drop j) = false) →
    runScan (litM pat7 []) (pBlocks qs ++ T) =
      pBlocks (qs.filter (fun q => !q.isEmpty)) ++ T := by
  intro qs
  induction qs with
  | nil =>
    intro T hq hT
    exact runScan_lit_id pat7 [] T ((containsSub_false_iff pat7 (by decide) T).mpr hT)
  | cons q qs' ih =>
    intro T hq hT
    have hgq := hq q (List.mem_cons_self _ _)
    have hqs' := fun p hp => hq p (List.mem_cons_of_mem _ hp)
    by_cases hqe : q = []
    · subst hqe
      have hE : pBlocks ([] :: qs') ++ T =
          '<' :: 'p' :: '>' :: '<' :: '/' :: 'p' :: '>' :: (pBlocks qs' ++ T) := by
        simp [pBlocks, pWrap, pTagO, pTagC]
      rw [hE]
      unfold runScan
      have hm : litM pat7 [] none
          ('<' :: 'p' :: '>' :: '<' :: '/' :: 'p' :: '>' :: (pBlocks qs' ++ T)) =
          some ([], 7) := by
        unfold litM
        rw [ite_eq_then _ _ (by
          show pat7.isPrefixOf (pat7 ++ (pBlocks qs' ++ T)) = true
          exact List.isPrefixOf_iff_prefix.mpr (List.prefix_append _ _))]
        rfl
      have hlen : ('<' :: 'p' :: '>' :: '<' :: '/' :: 'p' :: '>' ::
          (pBlocks qs' ++ T)).length = (6 + (pBlocks qs' ++ T).length) + 1 := by
        simp only [List.length_cons]
        omega
      rw [hlen]
      simp only [scanWith, hm, if_neg (by omega : ¬ (7 : Nat) = 0), List.nil_append]
      rw [show List.drop 7 ('<' :: 'p' :: '>' :: '<' :: '/' :: 'p' :: '>' ::
        (pBlocks qs' ++ T)) = pBlocks qs' ++ T from rfl]
      rw [scanWith_fuel_irrel _ (6 + (pBlocks qs' ++ T).length) (pBlocks qs' ++ T)
        (pBlocks qs' ++ T).length _ (by omega) (le_refl _),
        scanLit_prev_irrel _ _ _ _ _ none]
      have hfil : List.filter (fun q => !q.isEmpty) ([] :: qs') =
          List.filter (fun q => !q.isEmpty) qs' := by
        rw [List.filter_cons_of_neg (by decide)]
      rw [hfil]
      exact ih T hqs' hT
    · have hE : pBlocks (q :: qs') ++ T = pWrap q ++ (pBlocks qs' ++ T) := by
        simp [pBlocks, List.append_assoc]
      rw [hE]
      unfold runScan
      rw [scanLit_append pat7 [] (pWrap q) (pWrap q ++ (pBlocks qs' ++ T)).length none
        (pBlocks qs' ++ T) (le_refl _)
        (fun j hj => block_head_clear q hgq hqe _ j hj)]
      rw [show scanWith (litM pat7 []) (pBlocks qs' ++ T).length none (pBlocks qs' ++ T) =
        runScan (litM pat7 []) (pBlocks qs' ++ T) from rfl]
      rw [ih T hqs' hT]
      have hfil : List.filter (fun q => !q.isEmpty) (q :: qs') =
          q :: List.filter (fun q => !q.isEmpty) qs' := by
        rw [List.filter_cons_of_pos (by
          cases q with
          | nil => exact absurd rfl hqe
          | cons c cs => rfl)]
      rw [hfil]
      simp [pBlocks, List.append_assoc]

theorem wrap_joinSep : ∀ (qs : List (List Char)), qs ≠ [] →
    pTagO ++ joinSep qs ++ pTagC = pBlocks qs
  | [], h => absurd rfl h
  | [q], _ => by simp [joinSep, pBlocks, pWrap]
  | q :: q2 :: qs', _ => by
    have ih := wrap_joinSep (q2 :: qs') (List.cons_ne_nil _ _)
    show pTagO ++ ((q ++ sepT) ++ joinSep (q2 :: qs')) ++ pTagC =
      pWrap q ++ pBlocks (q2 :: qs')
    rw [← ih]
    simp [pWrap, sepT, List.append_assoc]


/-! ### Regions of the unwrapped (already-tagged) case -/

theorem noPat7_good (q : List Char) (hg : good q = true) (j : Nat) :
    pat7.isPrefixOf (q.drop j) = false := by
  have h := nopq_pat7 q [] hg (by decide) j
  rwa [List.append_nil] at h

theorem noLto_good (q : List Char) (hg : good q = true) (j : Nat) :
    (('<' : Char) :: 'o' :: []).isPrefixOf (q.drop j) = false := by
  have h := nopq_lto q [] hg (by decide) j
  rwa [List.append_nil] at h

theorem tail_clear (qlast : List Char) (hg : good qlast = true) (j : Nat) :
    pat7.isPrefixOf ((pTagO ++ qlast).drop j) = false := by
  rw [show pTagO ++ qlast = '<' :: 'p' :: '>' :: qlast from rfl]
  rcases j with _ | _ | _ | t
  · by_cases hqe : qlast = []
    · subst hqe
      decide
    · by_contra hb
      rw [Bool.not_eq_false] at hb
      have hpc := pat7_pre_block qlast hb
      have := pTagC_not_pre qlast [] hg hqe
      rw [List.append_nil] at this
      rw [this] at hpc
      exact absurd hpc (by simp)
  · show pat7.isPrefixOf ('p' :: '>' :: qlast) = false
    simp [pat7, pTagO, pTagC, List.isPrefixOf]
  · show pat7.isPrefixOf ('>' :: qlast) = false
    simp [pat7, pTagO, pTagC, List.isPrefixOf]
  · rw [drop3_cons]
    exact noPat7_good qlast hg t

theorem tail_clear_lto (qlast : List Char) (hg : good qlast = true) (j : Nat) :
    (('<' : Char) :: 'o' :: []).isPrefixOf ((pTagO ++ qlast).drop j) = false := by
  rw [show pTagO ++ qlast = '<' :: 'p' :: '>' :: qlast from rfl]
  rcases j with _ | _ | _ | t
  · show (('<' : Char) :: 'o' :: []).isPrefixOf ('<' :: 'p' :: '>' :: qlast) = false
    simp [List.isPrefixOf]
  · show (('<' : Char) :: 'o' :: []).isPrefixOf ('p' :: '>' :: qlast) = false
    simp [List.isPrefixOf]
  · show (('<' : Char) :: 'o' :: []).isPrefixOf ('>' :: qlast) = false
    simp [List.isPrefixOf]
  · rw [drop3_cons]
    exact noLto_good qlast hg t

theorem front_clear (q1 : List Char) (hg : good q1 = true) (Z : List Char) (j : Nat)
    (hj : j < (q1 ++ pTagC).length) :
    pat7.isPrefixOf (((q1 ++ pTagC) ++ Z).drop j) = false := by
  rw [List.append_assoc]
  by_cases hle : j ≤ q1.length
  · rw [List.drop_append_of_le_length hle]
    exact nopq_pat7 q1 (pTagC ++ Z) hg (by simp [pat7, pTagO, pTagC, List.isPrefixOf]) j
  · obtain ⟨t', rfl⟩ : ∃ t', j = q1.length + t' := ⟨j - q1.length, by omega⟩
    rw [List.drop_append]
    have h4 : t' < 4 := by
      rw [List.length_append, show pTagC.length = 4 from rfl] at hj
      omega
    have h1 : 1 ≤ t' := by omega
    interval_cases t'
    · show pat7.isPrefixOf ('/' :: 'p' :: '>' :: Z) = false
      simp [pat7, pTagO, pTagC, List.isPrefixOf]
    · show pat7.isPrefixOf ('p' :: '>' :: Z) = false
      simp [pat7, pTagO, pTagC, List.isPrefixOf]
    · show pat7.isPrefixOf ('>' :: Z) = false
      simp [pat7, pTagO, pTagC, List.isPrefixOf]

theorem front_clear_lto (q1 : List Char) (hg : good q1 = true) (Z : List Char) (j : Nat)
    (hj : j < (q1 ++ pTagC).length) :
    (('<' : Char) :: 'o' :: []).isPrefixOf (((q1 ++ pTagC) ++ Z).drop j) = false := by
  rw [List.append_assoc]
  by_cases hle : j ≤ q1.length
  · rw [List.drop_append_of_le_length hle]
    exact nopq_lto q1 (pTagC ++ Z) hg (by simp [pTagC, List.isPrefixOf]) j
  · obtain ⟨t', rfl⟩ : ∃ t', j = q1.length + t' := ⟨j - q1.length, by omega⟩
    rw [List.drop_append]
    have h4 : t' < 4 := by
      rw [List.length_append, show pTagC.length = 4 from rfl] at hj
      omega
    have h1 : 1 ≤ t' := by omega
    interval_cases t'
    · show (('<' : Char) :: 'o' :: []).isPrefixOf ('/' :: 'p' :: '>' :: Z) = false
      simp [List.isPrefixOf]
    · show (('<' : Char) :: 'o' :: []).isPrefixOf ('p' :: '>' :: Z) = false
      simp [List.isPrefixOf]
    · show (('<' : Char) :: 'o' :: []).isPrefixOf ('>' :: Z) = false
      simp [List.isPrefixOf]

theorem joinSep_decomp : ∀ (mids : List (List Char)) (q1 qlast : List Char),
    joinSep (q1 :: (mids ++ [qlast])) =
      q1 ++ (pTagC ++ (pBlocks mids ++ (pTagO ++ qlast)))
  | [], q1, qlast => by
    show q1 ++ sepT ++ joinSep [qlast] = _
    simp [joinSep, sepT, pBlocks, List.append_assoc]
  | m :: mids', q1, qlast => by
    have ih := joinSep_decomp mids' m qlast
    show q1 ++ sepT ++ joinSep (m :: (mids' ++ [qlast])) = _
    rw [ih]
    simp [sepT, pBlocks, pWrap, List.append_assoc]

theorem removalA (q1 : List Char) (mids : List (List Char)) (qlast : List Char)
    (hg1 : good q1 = true) (hmids : ∀ q ∈ mids, good q = true)
    (hgl : good qlast = true) :
    runScan (litM pat7 []) (q1 ++ (pTagC ++ (pBlocks mids ++ (pTagO ++ qlast)))) =
      q1 ++ (pTagC ++ (pBlocks (mids.filter (fun q => !q.isEmpty)) ++
        (pTagO ++ qlast))) := by
  rw [show q1 ++ (pTagC ++ (pBlocks mids ++ (pTagO ++ qlast))) =
    (q1 ++ pTagC) ++ (pBlocks mids ++ (pTagO ++ qlast)) from by
      simp [List.append_assoc]]
  unfold runScan
  rw [scanLit_append pat7 [] (q1 ++ pTagC) _ none (pBlocks mids ++ (pTagO ++ qlast))
    (le_refl _) (fun j hj => front_clear q1 hg1 _ j hj)]
  rw [show scanWith (litM pat7 []) (pBlocks mids ++ (pTagO ++ qlast)).length none
    (pBlocks mids ++ (pTagO ++ qlast)) =
    runScan (litM pat7 []) (pBlocks mids ++ (pTagO ++ qlast)) from rfl]
  rw [removal_pBlocksT mids (pTagO ++ qlast) hmids (tail_clear qlast hgl)]
  simp [List.append_assoc]


/-! ### The output of the removal pass, in both paragraph-wrap cases -/

theorem resultA_noPat7 (q1 : List Char) (mids : List (List Char)) (qlast : List Char)
    (hg1 : good q1 = true) (hmids : ∀ q ∈ mids, good q = true ∧ q ≠ [])
    (hgl : good qlast = true) (j : Nat) :
    pat7.isPrefixOf ((q1 ++ (pTagC ++ (pBlocks mids ++ (pTagO ++ qlast)))).drop j)
      = false := by
  rw [show q1 ++ (pTagC ++ (pBlocks mids ++ (pTagO ++ qlast))) =
    (q1 ++ pTagC) ++ (pBlocks mids ++ (pTagO ++ qlast)) from by simp [List.append_assoc]]
  by_cases hj : j < (q1 ++ pTagC).length
  · exact front_clear q1 hg1 _ j hj
  · obtain ⟨j', rfl⟩ : ∃ j', j = (q1 ++ pTagC).length + j' :=
      ⟨j - (q1 ++ pTagC).length, by omega⟩
    rw [List.drop_append]
    exact noPat7_pBlocksT mids (pTagO ++ qlast) hmids (tail_clear qlast hgl) j'

theorem resultA_noLto (q1 : List Char) (mids : List (List Char)) (qlast : List Char)
    (hg1 : good q1 = true) (hmids : ∀ q ∈ mids, good q = true)
    (hgl : good qlast = true) (j : Nat) :
    (('<' : Char) :: 'o' :: []).isPrefixOf
      ((q1 ++ (pTagC ++ (pBlocks mids ++ (pTagO ++ qlast)))).drop j) = false := by
  rw [show q1 ++ (pTagC ++ (pBlocks mids ++ (pTagO ++ qlast))) =
    (q1 ++ pTagC) ++ (pBlocks mids ++ (pTagO ++ qlast)) from by simp [List.append_assoc]]
  by_cases hj : j < (q1 ++ pTagC).length
  · exact front_clear_lto q1 hg1 _ j hj
  · obtain ⟨j', rfl⟩ : ∃ j', j = (q1 ++ pTagC).length + j' :=
      ⟨j - (q1 ++ pTagC).length, by omega⟩
    rw [List.drop_append]
    exact noLto_pBlocksT mids (pTagO ++ qlast) hmids (tail_clear_lto qlast hgl) j'

theorem caseB_facts (qs : List (List Char)) (hqs : ∀ q ∈ qs, good q = true)
    (hne : qs ≠ []) :
    runScan (litM pat7 []) (pTagO ++ joinSep qs ++ pTagC) =
      pBlocks (qs.filter (fun q => !q.isEmpty)) ∧
    (∀ j, pat7.isPrefixOf ((pBlocks (qs.filter (fun q => !q.isEmpty))).drop j) = false) ∧
    (∀ j, (('<' : Char) :: 'o' :: []).isPrefixOf
      ((pBlocks (qs.filter (fun q => !q.isEmpty))).drop j) = false) := by
  have hfq : ∀ q ∈ qs.filter (fun q => !q.isEmpty), good q = true ∧ q ≠ [] := by
    intro q hq
    have hm := List.mem_filter.mp hq
    refine ⟨hqs q hm.1, ?_⟩
    intro he
    subst he
    have := hm.2
    simp at this
  refine ⟨?_, ?_, ?_⟩
  · rw [wrap_joinSep qs hne]
    have h := removal_pBlocksT qs [] hqs (fun j => by rw [List.drop_nil]; decide)
    rwa [List.append_nil, List.append_nil] at h
  · intro j
    have h := noPat7_pBlocksT (qs.filter (fun q => !q.isEmpty)) [] hfq
      (fun j => by rw [List.drop_nil]; decide) j
    rwa [List.append_nil] at h
  · intro j
    have h := noLto_pBlocksT (qs.filter (fun q => !q.isEmpty)) []
      (fun q hq => (hfq q hq).1) (fun j => by rw [List.drop_nil]; decide) j
    rwa [List.append_nil] at h

theorem caseA_facts (qs : List (List Char)) (hqs : ∀ q ∈ qs, good q = true)
    (hne : qs ≠ []) :
    ∃ out, runScan (litM pat7 []) (joinSep qs) = out ∧
      (∀ j, pat7.isPrefixOf (out.drop j) = false) ∧
      (∀ j, (('<' : Char) :: 'o' :: []).isPrefixOf (out.drop j) = false) := by
  cases qs with
  | nil => exact absurd rfl hne
  | cons q1 rest =>
    have hg1 : good q1 = true := hqs q1 (List.mem_cons_self _ _)
    cases rest with
    | nil =>
      refine ⟨q1, ?_, fun j => noPat7_good q1 hg1 j, fun j => noLto_good q1 hg1 j⟩
      exact runScan_lit_id pat7 [] q1
        ((containsSub_false_iff pat7 (by decide) q1).mpr (fun j => noPat7_good q1 hg1 j))
    | cons r rs =>
      have hrne : (r :: rs) ≠ [] := List.cons_ne_nil _ _
      have heq := List.dropLast_concat_getLast hrne
      have hmids : ∀ q ∈ (r :: rs).dropLast, good q = true :=
        fun q hq => hqs q (List.mem_cons_of_mem _ (List.mem_of_mem_dropLast hq))
      have hgl : good ((r :: rs).getLast hrne) = true :=
        hqs _ (List.mem_cons_of_mem _ (List.getLast_mem hrne))
      have hfmids : ∀ q ∈ ((r :: rs).dropLast).filter (fun q => !q.isEmpty),
          good q = true ∧ q ≠ [] := by
        intro q hq
        have hm := List.mem_filter.mp hq
        refine ⟨hmids q hm.1, ?_⟩
        intro he
        subst he
        have := hm.2
        simp at this
      refine ⟨(q1 ++ (pTagC ++ (pBlocks (((r :: rs).dropLast).filter
        (fun q => !q.isEmpty)) ++ (pTagO ++ (r :: rs).getLast hrne)))), ?_, ?_, ?_⟩
      · rw [show joinSep (q1 :: r :: rs) =
          joinSep (q1 :: ((r :: rs).dropLast ++ [(r :: rs).getLast hrne])) from by
            rw [heq]]
        rw [joinSep_decomp]
        exact removalA q1 _ _ hg1 hmids hgl
      · exact resultA_noPat7 q1 _ _ hg1 hfmids hgl
      · exact resultA_noLto q1 _ _ hg1 (fun q hq => (hfmids q hq).1) hgl


/-! ### Generic preservation of substring-freeness by the cleanup scans -/

theorem containsSub_false_drop (q : List Char) (hq : q ≠ []) (l : List Char) (k : Nat)
    (h : containsSub q l = false) : containsSub q (l.drop k) = false := by
  rw [containsSub_false_iff q hq] at h ⊢
  intro j
  rw [List.drop_drop]
  exact h (k + j)

theorem scan_noq_aux (q : List Char) (m : Matcher)
    (Hm : ∀ (prev : Option Char) (l r : List Char) (k : Nat), m prev l = some (r, k) →
      1 ≤ k ∧ (∀ i, i < q.length →
        (q.drop i).isPrefixOf r = false ∧ r.isPrefixOf (q.drop i) = false)) :
    ∀ (fuel : Nat) (prev : Option Char) (l : List Char), containsSub q l = false →
    ∀ (a b : List Char), q = a ++ b → b ≠ [] →
    b.isPrefixOf (scanWith m fuel prev l) = true → b.isPrefixOf l = true := by
  intro fuel
  induction fuel with
  | zero => intro prev l _ a b _ _ hpre; exact hpre
  | succ f ih =>
    intro prev l hnq a b hq hb hpre
    cases l with
    | nil => exact hpre
    | cons c rest =>
      cases hm : m prev (c :: rest) with
      | some rk =>
        obtain ⟨r, k⟩ := rk
        obtain ⟨hk, hC1⟩ := Hm prev _ r k hm
        simp only [scanWith, hm, if_neg (by omega : ¬ k = 0)] at hpre
        exfalso
        have hidx : q.drop a.length = b := by rw [hq, List.drop_left]
        have hbpos : 0 < b.length := by
          cases b with
          | nil => exact absurd rfl hb
          | cons _ _ => simp
        have hlt : a.length < q.length := by
          rw [hq, List.length_append]
          omega
        obtain ⟨hC1a, hC1b⟩ := hC1 a.length hlt
        rw [hidx] at hC1a hC1b
        rcases prefix_append_cases hpre with ⟨-, hba⟩ | ⟨-, hab, -⟩
        · rw [hC1a] at hba
          exact Bool.noConfusion hba
        · rw [hC1b] at hab
          exact Bool.noConfusion hab
      | none =>
        simp only [scanWith, hm] at hpre
        cases b with
        | nil => exact absurd rfl hb
        | cons b0 b' =>
          have hsplit : (b0 == c) = true ∧
              b'.isPrefixOf (scanWith m f (some c) rest) = true := by
            simpa [List.isPrefixOf, Bool.and_eq_true] using hpre
          have hb0 : b0 = c := by simpa using hsplit.1
          have hnrest : containsSub q rest = false := by
            rw [containsSub, Bool.or_eq_false_iff] at hnq
            exact hnq.2
          cases b' with
          | nil =>
            show ([b0]).isPrefixOf (c :: rest) = true
            simp [List.isPrefixOf, hb0]
          | cons b1 b'' =>
            have hrec := ih (some c) rest hnrest (a ++ [b0]) (b1 :: b'')
              (by rw [hq]; simp) (List.cons_ne_nil _ _) hsplit.2
            show (b0 :: b1 :: b'').isPrefixOf (c :: rest) = true
            simp only [List.isPrefixOf, Bool.and_eq_true, beq_iff_eq]
            exact ⟨hb0, hrec⟩

theorem scan_noq (q : List Char) (hq2 : 2 ≤ q.length) (m : Matcher)
    (Hm : ∀ (prev : Option Char) (l r : List Char) (k : Nat), m prev l = some (r, k) →
      1 ≤ k ∧ (∀ i, i < q.length →
        (q.drop i).isPrefixOf r = false ∧ r.isPrefixOf (q.drop i) = false) ∧
      (∀ jj, 1 ≤ jj → jj < r.length →
        (r.drop jj).isPrefixOf q = false ∧ q.isPrefixOf (r.drop jj) = false)) :
    ∀ (fuel : Nat) (prev : Option Char) (l : List Char), containsSub q l = false →
    containsSub q (scanWith m fuel prev l) = false := by
  have hqne : q ≠ [] := by
    intro he
    subst he
    simp at hq2
  intro fuel
  induction fuel with
  | zero => intro prev l h; exact h
  | succ f ih =>
    intro prev l hnq
    cases l with
    | nil =>
      cases q with
      | nil => simp at hq2
      | cons _ _ => rfl
    | cons c rest =>
      have hnq' := hnq
      rw [containsSub, Bool.or_eq_false_iff] at hnq'
      obtain ⟨h0, hrest⟩ := hnq'
      cases hm : m prev (c :: rest) with
      | some rk =>
        obtain ⟨r, k⟩ := rk
        obtain ⟨hk, hC1, hC2⟩ := Hm prev _ r k hm
        simp only [scanWith, hm, if_neg (by omega : ¬ k = 0)]
        have hS : containsSub q (scanWith m f
            (lastOr (List.take k (c :: rest)) prev) (List.drop k (c :: rest))) = false :=
          ih _ _ (containsSub_false_drop q hqne _ k hnq)
        rw [containsSub_false_iff q hqne]
        intro j
        by_cases hj : j < r.length
        · rw [List.drop_append_of_le_length (by omega)]
          by_cases hcontra : q.isPrefixOf (r.drop j ++ scanWith m f
              (lastOr (List.take k (c :: rest)) prev) (List.drop k (c :: rest))) = true
          · exfalso
            by_cases hj0 : j = 0
            · subst hj0
              rw [List.drop_zero] at hcontra
              rcases prefix_append_cases hcontra with ⟨-, hqr⟩ | ⟨-, hrq, -⟩
              · have := (hC1 0 (by omega)).1
                rw [List.drop_zero, hqr] at this
                exact Bool.noConfusion this
              · have := (hC1 0 (by omega)).2
                rw [List.drop_zero, hrq] at this
                exact Bool.noConfusion this
            · obtain ⟨hC2a, hC2b⟩ := hC2 j (by omega) hj
              rcases prefix_append_cases hcontra with ⟨-, hqr⟩ | ⟨-, hrq, -⟩
              · rw [hC2b] at hqr
                exact Bool.noConfusion hqr
              · rw [hC2a] at hrq
                exact Bool.noConfusion hrq
          · rw [Bool.not_eq_true] at hcontra
            exact hcontra
        · obtain ⟨j', rfl⟩ : ∃ j', j = r.length + j' := ⟨j - r.length, by omega⟩
          rw [List.drop_append]
          exact (containsSub_false_iff q hqne _).mp hS j'
      | none =>
        simp only [scanWith, hm]
        rw [containsSub, Bool.or_eq_false_iff]
        refine ⟨?_, ih (some c) rest hrest⟩
        by_contra hcontra
        rw [Bool.not_eq_false] at hcontra
        cases q with
        | nil => simp at hq2
        | cons q0 q' =>
          have hsplit : (q0 == c) = true ∧
              q'.isPrefixOf (scanWith m f (some c) rest) = true := by
            simpa [List.isPrefixOf, Bool.and_eq_true] using hcontra
          have hq0 : q0 = c := by simpa using hsplit.1
          have hq'ne : q' ≠ [] := by
            intro he
            subst he
            simp at hq2
          have haux := scan_noq_aux (q0 :: q') m
            (fun prev l r k hm' => ⟨(Hm prev l r k hm').1, (Hm prev l r k hm').2.1⟩)
            f (some c) rest hrest [q0] q' rfl hq'ne hsplit.2
          have : (q0 :: q').isPrefixOf (c :: rest) = true := by
            simp only [List.isPrefixOf, Bool.and_eq_true, beq_iff_eq]
            exact ⟨hq0, haux⟩
          rw [h0] at this
          exact Bool.noConfusion this

/-! ### Instantiating the substring-freeness lemma for the cleanup passes -/

theorem char_toNat_inj (a b : Char) (h : a.toNat = b.toNat) : a = b :=
  Char.ext (UInt32.ext h)

theorem noqOk_spec (q r : List Char) (h : noqOk q r = true) :
    (∀ i, i < q.length →
      (q.drop i).isPrefixOf r = false ∧ r.isPrefixOf (q.drop i) = false) ∧
    (∀ jj, 1 ≤ jj → jj < r.length →
      (r.drop jj).isPrefixOf q = false ∧ q.isPrefixOf (r.drop jj) = false) := by
  unfold noqOk at h
  rw [Bool.and_eq_true] at h
  obtain ⟨h1, h2⟩ := h
  constructor
  · intro i hi
    have h' := List.all_eq_true.mp h1 i (List.mem_range.mpr hi)
    rw [Bool.and_eq_true] at h'
    obtain ⟨ha, hb⟩ := h'
    rw [Bool.not_eq_true'] at ha hb
    exact ⟨ha, hb⟩
  · intro jj h1j hjj
    have h' := List.all_eq_true.mp h2 jj (List.mem_range.mpr hjj)
    rw [Bool.or_eq_true] at h'
    rcases h' with h' | h'
    · exact absurd (of_decide_eq_true h') (by omega)
    · rw [Bool.and_eq_true] at h'
      obtain ⟨ha, hb⟩ := h'
      rw [Bool.not_eq_true'] at ha hb
      exact ⟨ha, hb⟩

theorem runScan_noq_lit (q : List Char) (hq2 : 2 ≤ q.length) (pat repl : List Char)
    (hpat : pat ≠ []) (hok : noqOk q repl = true) (l : List Char)
    (h : containsSub q l = false) :
    containsSub q (runScan (litM pat repl) l) = false := by
  obtain ⟨hC1, hC2⟩ := noqOk_spec q repl hok
  apply scan_noq q hq2 _ ?_ l.length none l h
  intro prev l' r k hm
  unfold litM at hm
  split at hm
  · simp only [Option.some.injEq, Prod.mk.injEq] at hm
    obtain ⟨rfl, rfl⟩ := hm
    refine ⟨?_, hC1, hC2⟩
    cases pat with
    | nil => exact absurd rfl hpat
    | cons _ _ => simp
  · exact Option.noConfusion hm

theorem isH16_cases (d : Char) (h : isH16 d = true) :
    d = '1' ∨ d = '2' ∨ d = '3' ∨ d = '4' ∨ d = '5' ∨ d = '6' := by
  unfold isH16 at h
  rw [Bool.and_eq_true] at h
  obtain ⟨h1, h2⟩ := h
  have h1' := of_decide_eq_true h1
  have h2' := of_decide_eq_true h2
  have : d.toNat = 49 ∨ d.toNat = 50 ∨ d.toNat = 51 ∨ d.toNat = 52 ∨
      d.toNat = 53 ∨ d.toNat = 54 := by omega
  rcases this with h | h | h | h | h | h
  · exact Or.inl (char_toNat_inj d '1' h)
  · exact Or.inr (Or.inl (char_toNat_inj d '2' h))
  · exact Or.inr (Or.inr (Or.inl (char_toNat_inj d '3' h)))
  · exact Or.inr (Or.inr (Or.inr (Or.inl (char_toNat_inj d '4' h))))
  · exact Or.inr (Or.inr (Or.inr (Or.inr (Or.inl (char_toNat_inj d '5' h)))))
  · exact Or.inr (Or.inr (Or.inr (Or.inr (Or.inr (char_toNat_inj d '6' h)))))

theorem runScan_noq_pOpenH (q : List Char) (hq2 : 2 ≤ q.length)
    (hok : ∀ d, isH16 d = true → noqOk q ['<', 'h', d, '>'] = true) (l : List Char)
    (h : containsSub q l = false) :
    containsSub q (runScan pOpenHM l) = false := by
  apply scan_noq q hq2 _ ?_ l.length none l h
  intro prev l' r k hm
  unfold pOpenHM at hm
  split at hm
  · rename_i d tail
    by_cases hd : isH16 d = true
    · rw [ite_eq_then _ _ hd] at hm
      simp only [Option.some.injEq, Prod.mk.injEq] at hm
      obtain ⟨rfl, rfl⟩ := hm
      obtain ⟨h1, h2⟩ := noqOk_spec q _ (hok d hd)
      exact ⟨by omega, h1, h2⟩
    · rw [ite_eq_else _ _ (by rw [← Bool.not_eq_true]; exact hd)] at hm
      exact Option.noConfusion hm
  · exact Option.noConfusion hm

theorem runScan_noq_hCloseP (q : List Char) (hq2 : 2 ≤ q.length)
    (hok : ∀ d, isH16 d = true → noqOk q ['<', '/', 'h', d, '>'] = true) (l : List Char)
    (h : containsSub q l = false) :
    containsSub q (runScan hClosePM l) = false := by
  apply scan_noq q hq2 _ ?_ l.length none l h
  intro prev l' r k hm
  unfold hClosePM at hm
  split at hm
  · rename_i d tail
    by_cases hd : isH16 d = true
    · rw [ite_eq_then _ _ hd] at hm
      simp only [Option.some.injEq, Prod.mk.injEq] at hm
      obtain ⟨rfl, rfl⟩ := hm
      obtain ⟨h1, h2⟩ := noqOk_spec q _ (hok d hd)
      exact ⟨by omega, h1, h2⟩
    · rw [ite_eq_else _ _ (by rw [← Bool.not_eq_true]; exact hd)] at hm
      exact Option.noConfusion hm
  · exact Option.noConfusion hm


/-! ### Assembly: the full pipeline never contains `<p></p>` or `<o` -/

theorem removal_out (qs : List (List Char)) (hqs : ∀ q ∈ qs, good q = true)
    (hne : qs ≠ []) :
    ∃ out, runScan (litM "<p></p>".data []) (wrapP (joinSep qs)) = out ∧
      (∀ j, pat7.isPrefixOf (out.drop j) = false) ∧
      (∀ j, (('<' : Char) :: 'o' :: []).isPrefixOf (out.drop j) = false) := by
  cases hw : joinSep qs with
  | nil =>
    have hcb := caseB_facts qs hqs hne
    have hb1 := hcb.1
    rw [hw] at hb1
    refine ⟨_, ?_, hcb.2.1, hcb.2.2⟩
    rw [show ("<p></p>".data : List Char) = pat7 from rfl,
        show wrapP ([] : List Char) = pTagO ++ [] ++ pTagC from rfl]
    exact hb1
  | cons c w' =>
    by_cases hc : c = '<'
    · subst hc
      obtain ⟨out, ho, h1, h2⟩ := caseA_facts qs hqs hne
      rw [hw] at ho
      refine ⟨out, ?_, h1, h2⟩
      rw [show ("<p></p>".data : List Char) = pat7 from rfl,
          show wrapP ('<' :: w') = '<' :: w' from rfl]
      exact ho
    · have hcb := caseB_facts qs hqs hne
      have hb1 := hcb.1
      rw [hw] at hb1
      have hwp : wrapP (c :: w') = pTagO ++ (c :: w') ++ pTagC := by
        unfold wrapP
        split
        · rename_i w'' heq
          injection heq with h1 h2
          exact absurd h1 hc
        · rfl
      refine ⟨_, ?_, hcb.2.1, hcb.2.2⟩
      rw [show ("<p></p>".data : List Char) = pat7 from rfl, hwp]
      exact hb1

theorem md_noq (s : String) :
    containsSub pat7 (mdStages (escapeHtml s.data)) = false ∧
    containsSub (('<' : Char) :: 'o' :: []) (mdStages (escapeHtml s.data)) = false := by
  rw [mdStages_decomp, foldP_eq]
  have hgv := preFold_good (escapeHtml s.data) (good_escape s.data)
  obtain ⟨out, hout, hnp, hnl⟩ := removal_out _ (foldP_parts_good _ hgv) (by
    intro he
    rw [List.map_eq_nil_iff] at he
    exact fold1_ne_nil _ _ he)
  unfold cleanupP
  rw [hout]
  constructor
  · apply runScan_noq_lit pat7 (by decide) _ _ (by decide) (by decide)
    apply runScan_noq_lit pat7 (by decide) _ _ (by decide) (by decide)
    apply runScan_noq_lit pat7 (by decide) _ _ (by decide) (by decide)
    apply runScan_noq_lit pat7 (by decide) _ _ (by decide) (by decide)
    apply runScan_noq_lit pat7 (by decide) _ _ (by decide) (by decide)
    apply runScan_noq_lit pat7 (by decide) _ _ (by decide) (by decide)
    apply runScan_noq_lit pat7 (by decide) _ _ (by decide) (by decide)
    apply runScan_noq_hCloseP pat7 (by decide) (fun d hd => by
      rcases isH16_cases d hd with rfl | rfl | rfl | rfl | rfl | rfl <;> decide)
    apply runScan_noq_pOpenH pat7 (by decide) (fun d hd => by
      rcases isH16_cases d hd with rfl | rfl | rfl | rfl | rfl | rfl <;> decide)
    exact (containsSub_false_iff pat7 (by decide) out).mpr hnp
  · apply runScan_noq_lit _ (by decide) _ _ (by decide) (by decide)
    apply runScan_noq_lit _ (by decide) _ _ (by decide) (by decide)
    apply runScan_noq_lit _ (by decide) _ _ (by decide) (by decide)
    apply runScan_noq_lit _ (by decide) _ _ (by decide) (by decide)
    apply runScan_noq_lit _ (by decide) _ _ (by decide) (by decide)
    apply runScan_noq_lit _ (by decide) _ _ (by decide) (by decide)
    apply runScan_noq_lit _ (by decide) _ _ (by decide) (by decide)
    apply runScan_noq_hCloseP _ (by decide) (fun d hd => by
      rcases isH16_cases d hd with rfl | rfl | rfl | rfl | rfl | rfl <;> decide)
    apply runScan_noq_pOpenH _ (by decide) (fun d hd => by
      rcases isH16_cases d hd with rfl | rfl | rfl | rfl | rfl | rfl <;> decide)
    exact (containsSub_false_iff _ (by decide) out).mpr hnl


theorem data_mk (l : List Char) : (String.mk l).data = l := rfl

/-- **C10, amended.**  For every input string, with `allowHtml = false` (the
case in which the pipeline controls every tag it emits), the output of
`parseMarkdown` contains no occurrence of `<p></p>`.  (The original claim
quantified over both values of `allowHtml`; the counterexample shows it fails
for `allowHtml = true`.) -/
theorem c10_no_empty_paragraph (s : String) :
    subStr "<p></p>" (parseMarkdown s false) = false := by
  unfold subStr
  rw [show parseMarkdown s false = String.mk (mdStages (escapeHtml s.data)) from by
    unfold parseMarkdown
    rw [if_neg Bool.false_ne_true]]
  rw [data_mk (mdStages (escapeHtml s.data))]
  have h := (md_noq s).1
  rwa [show pat7 = ("<p></p>".data : List Char) from rfl] at h

/-- **C7.**  List handling is asymmetric: bullet lines become `<li>` items and
contiguous runs are wrapped in `<ul>…</ul>`, while ordinal lines become `<li>`
items with no `<ol>` wrapper; indeed for `allowHtml = false` the output never
contains the substring `<ol` at all. -/
theorem c7_list_asymmetry :
    (parseMarkdown "- a\n- b" false = "<ul><li>a</li><br /><li>b</li></ul>" ∧
     parseMarkdown "1. a\n2. b" false = "<li>a</li><br /><li>b</li>") ∧
    ∀ s : String, subStr "<ol" (parseMarkdown s false) = false := by
  refine ⟨⟨by decide, by decide⟩, ?_⟩
  intro s
  unfold subStr
  rw [show parseMarkdown s false = String.mk (mdStages (escapeHtml s.data)) from by
    unfold parseMarkdown
    rw [if_neg Bool.false_ne_true]]
  rw [data_mk (mdStages (escapeHtml s.data))]
  have h2 := (md_noq s).2
  rw [containsSub_false_iff _ (by decide)] at h2 ⊢
  intro j
  by_contra hb
  rw [Bool.not_eq_false] at hb
  have hpre : (('<' : Char) :: 'o' :: []).isPrefixOf
      ((mdStages (escapeHtml s.data)).drop j) = true := by
    rw [List.isPrefixOf_iff_prefix] at hb ⊢
    exact List.IsPrefix.trans ⟨['l'], rfl⟩ hb
  rw [h2 j] at hpre
  exact Bool.noConfusion hpre

end Moltbook
